import Mathlib

/-!
Verification development for the package `container` of coralpro/toolkits.

Shallow embedding of `src/container/linked_map.go` (`LinkedMap`, an insertion-ordered map)
and `src/container/collection_map.go` (`CollectionMap`, a multi-value map of drainable
queues), followed by theorems about the embedded operations.

Modelling conventions:
* a method with a pointer receiver that mutates its receiver is a function returning the new
  state (and the returned value when there is one);
* Go's `sync.Map` is modelled sequentially as a list of entries, one per key;
* a Go result `(value, ok)` is an `Option`: `(v, true)` is `some v`, `(nil, false)` is `none`;
* a run-time panic is `none` in an `Option`-valued operation;
* a type assertion `x.(T)` on a value read from a `sync.Map` panics when the value is the
  nil interface value, which a value of type `T` can be only when `T` is an interface type;
  which values those are is a parameter (`nilKey`, `nilValue`) of `LinkedMap.Sort` and
  `LinkedMap.Range`. In `collection_map.go` the assertions are taken to succeed: the lists
  stored are non-nil `*SafeList` pointers, and keys are taken not to be the nil interface
  value.
-/

namespace container

/-! ## `sync.Map` (standard library), sequential model -/

/-- Sequential model of Go's `sync.Map`: the list of live entries, in the order in which
`Range` visits them. -/
abbrev SyncMap (K V : Type) := List (K × V)

/-- Model of `sync.Map.Load`: the value stored under `key`, if any. -/
def SyncMap.Load {K V : Type} [DecidableEq K] : SyncMap K V → K → Option V
  | [], _ => none
  | (k, v) :: rest, key => if k = key then some v else SyncMap.Load rest key

/-- Model of `sync.Map.Store`: overwrite the entry of `key`, or add a new entry. -/
def SyncMap.Store {K V : Type} [DecidableEq K] : SyncMap K V → K → V → SyncMap K V
  | [], key, value => [(key, value)]
  | (k, v) :: rest, key, value =>
    if k = key then (key, value) :: rest else (k, v) :: SyncMap.Store rest key value

/-- Model of `sync.Map.Delete` / `sync.Map.LoadAndDelete` (result dropped): remove the entry
of `key`. -/
def SyncMap.Delete {K V : Type} [DecidableEq K] (s : SyncMap K V) (key : K) : SyncMap K V :=
  s.filter (fun e => decide (e.1 ≠ key))

/-! ## `linked_map.go` -/

/-- The struct `Pair[K, V]`. -/
structure Pair (K V : Type) where
  key : K
  value : V
deriving DecidableEq, Repr

/-- The method `Pair.Key`. -/
def Pair.Key {K V : Type} (kv : Pair K V) : K := kv.key

/-- The method `Pair.Value`. -/
def Pair.Value {K V : Type} (kv : Pair K V) : V := kv.value

/-- The struct `LinkedMap[K, V]`. -/
structure LinkedMap (K V : Type) where
  keys : List K
  values : SyncMap K V
  escapeHTML : Bool
deriving DecidableEq, Repr

/-- The constructor `NewLinkedMap`. -/
def NewLinkedMap {K V : Type} : LinkedMap K V :=
  { keys := [], values := [], escapeHTML := true }

namespace LinkedMap

variable {K V : Type} [DecidableEq K]

/-- The method `SetEscapeHTML`. -/
def SetEscapeHTML (this : LinkedMap K V) (onFlag : Bool) : LinkedMap K V :=
  { this with escapeHTML := onFlag }

/-- The method `Get`: `this.values.Load(key)`. -/
def Get (this : LinkedMap K V) (key : K) : Option V :=
  SyncMap.Load this.values key

/-- The method `Put`: append the key when the store has no entry for it, then store. -/
def Put (this : LinkedMap K V) (key : K) (value : V) : LinkedMap K V :=
  let keys :=
    match SyncMap.Load this.values key with
    | none => this.keys ++ [key]
    | some _ => this.keys
  { this with keys := keys, values := SyncMap.Store this.values key value }

/-- The loop of `Delete` over `this.keys`: cut out the first slot equal to `key` and stop. -/
def removeKey : List K → K → List K
  | [], _ => []
  | k :: rest, key => if k = key then rest else k :: removeKey rest key

/-- The method `Delete`. -/
def Delete (this : LinkedMap K V) (key : K) : LinkedMap K V :=
  { this with values := SyncMap.Delete this.values key, keys := removeKey this.keys key }

/-- The method `Keys`. -/
def Keys (this : LinkedMap K V) : List K := this.keys

/-- The method `Size`. -/
def Size (this : LinkedMap K V) : Nat := this.keys.length

/-- The method `SortKeys`: `sortFunc` rewrites the slots of `this.keys` in place; it is given
as the function from the old contents of the slice to the new ones. -/
def SortKeys (this : LinkedMap K V) (sortFunc : List K → List K) : LinkedMap K V :=
  { this with keys := sortFunc this.keys }

end LinkedMap

/-! ### `Sort`: the standard library `sort.Sort` and `ByPair` -/

/-- What `sort.Interface` asks of `Less`: a strict weak ordering (irreflexive, transitive,
and with a transitive incomparability relation). -/
def StrictWeakOrder {α : Type} (less : α → α → Bool) : Prop :=
  (∀ a, less a a = false) ∧
  (∀ a b c, less a b = true → less b c = true → less a c = true) ∧
  (∀ a b c, less a b = false → less b a = false → less b c = false → less c b = false →
    less a c = false ∧ less c a = false)

/-- The result of a sort by `less`: no element is `less` than one placed before it. -/
def SortedBy {α : Type} (less : α → α → Bool) (xs : List α) : Prop :=
  xs.Pairwise (fun a b => less b a = false)

/-- The standard library routine `sort.Sort` run on a slice through `Len`, `Swap` and `Less`
as `ByPair` defines them, taken by its contract: it only swaps elements, so the result is a
rearrangement of the input whatever `Less` is, and the result is in ascending order when
`Less` is a strict weak ordering. It is not stable, so the contract fixes no more. -/
structure SortRoutine (α : Type) where
  run : (α → α → Bool) → List α → List α
  perm : ∀ less xs, (run less xs).Perm xs
  sorted : ∀ less xs, StrictWeakOrder less → SortedBy less (run less xs)

/-- Insertion sort (the branch `sort.Sort` takes on short slices), an instance of the
contract `SortRoutine`. -/
def insertionSortRoutine (α : Type) : SortRoutine α where
  run := fun less xs => List.insertionSort (fun a b => less b a = false) xs
  perm := fun less xs => List.perm_insertionSort (fun a b => less b a = false) xs
  sorted := by
    intro less xs h
    obtain ⟨hirr, htr, hinc⟩ := h
    have hasym : ∀ a b, less a b = true → less b a = false := by
      intro a b hab
      cases hba : less b a with
      | false => rfl
      | true => have := htr a b a hab hba; rw [hirr a] at this; exact absurd this (by decide)
    haveI : IsTotal α (fun a b => less b a = false) := ⟨fun a b => by
      cases hba : less b a with
      | false => exact Or.inl rfl
      | true => exact Or.inr (hasym b a hba)⟩
    haveI : IsTrans α (fun a b => less b a = false) := ⟨fun a b c hab hbc => by
      show less c a = false
      have hab : less b a = false := hab
      have hbc : less c b = false := hbc
      cases hca : less c a with
      | false => rfl
      | true =>
        exfalso
        cases hab2 : less a b with
        | true =>
          have := htr c a b hca hab2
          rw [hbc] at this; exact absurd this (by decide)
        | false =>
          cases hbc2 : less b c with
          | true =>
            have := htr b c a hbc2 hca
            rw [hab] at this; exact absurd this (by decide)
          | false =>
            have := (hinc a b c hab2 hab hbc2 hbc).2
            rw [hca] at this; exact absurd this (by decide)⟩
    exact List.sorted_insertionSort (fun a b => less b a = false) xs

/-- The type assertion `x.(T)` on a value that was stored as a `T`: it panics (`none`) on the
nil interface value and gives the value back otherwise. `isNil` tells which values of the
type are the nil interface value. -/
def assertType {α : Type} (isNil : α → Bool) (x : α) : Option α :=
  if isNil x then none else some x

/-- The nil test of a type that is not an interface type (`int`, `string`, a struct, a
pointer): none of its values is the nil interface value. -/
def notInterface {α : Type} : α → Bool := fun _ => false

/-- The slots of a slice of pointers when none of them is nil. -/
def allFilled {α : Type} : List (Option α) → Option (List α)
  | [] => some []
  | none :: _ => none
  | some a :: rest => (allFilled rest).map (fun as => a :: as)

namespace LinkedMap

variable {K V : Type} [DecidableEq K]

/-- The first loop of `Sort` over the keys not yet visited: when the store has the key, the
value is asserted to be a `V` (`val.(V)`, a panic on the nil interface value, `none` here) and
the slot holds the pair; when the store has no entry the slot stays nil. -/
def sortSlots (nilValue : V → Bool) (values : SyncMap K V) :
    List K → Option (List (Option (Pair K V)))
  | [] => some []
  | key :: rest =>
    match SyncMap.Load values key with
    | none => (sortSlots nilValue values rest).map (fun slots => none :: slots)
    | some val =>
      match assertType nilValue val with
      | none => none
      | some v => (sortSlots nilValue values rest).map (fun slots => some (Pair.mk key v) :: slots)

/-- The first loop of `Sort`: the array `pairs`, one slot per key of `this.keys`, or `none`
when a type assertion panics. -/
def sortPairs (nilValue : V → Bool) (this : LinkedMap K V) :
    Option (List (Option (Pair K V))) :=
  sortSlots nilValue this.values this.keys

/-- The method `Sort` (the bare name is a reserved word here), with the routine behind
`sort.Sort` as a parameter. A panic of the first loop is a panic of `Sort`. A nil slot of
`pairs` makes the last loop dereference nil (`pair.key`), a panic, whatever the sort did with
it before: the result is then `none`. Otherwise the keys are rewritten from the sorted
pairs. -/
def Sort' (nilValue : V → Bool) (routine : SortRoutine (Pair K V)) (this : LinkedMap K V)
    (lessFunc : Pair K V → Pair K V → Bool) : Option (LinkedMap K V) :=
  match sortPairs nilValue this with
  | none => none
  | some slots =>
    match allFilled slots with
    | none => none
    | some pairs => some { this with keys := (routine.run lessFunc pairs).map Pair.key }

end LinkedMap

/-! ### `MarshalJSON`: the standard library `json.Encoder` -/

/-- The JSON encodings of keys and of values that `encoding/json` produces (compact, one
item, without the line end), or the error it reports, for each setting of `escapeHTML`. -/
structure JSONCodec (K V E : Type) where
  key : Bool → K → Except E (List Char)
  value : Bool → V → Except E (List Char)

/-- The JSON encoding of a value of type `any` read from the store: nil encodes as `null`. -/
def JSONCodec.any {K V E : Type} (codec : JSONCodec K V E) (escapeHTML : Bool) :
    Option V → Except E (List Char)
  | none => Except.ok ['n', 'u', 'l', 'l']
  | some v => codec.value escapeHTML v

/-- Model of `json.Encoder.Encode` on a `bytes.Buffer`: on success the encoding of the item
followed by a newline character is appended to the buffer; on failure the error is returned. -/
def Encode {α E : Type} (marshal : α → Except E (List Char)) (buf : List Char) (item : α) :
    Except E (List Char) :=
  match marshal item with
  | Except.error err => Except.error err
  | Except.ok bytes => Except.ok (buf ++ bytes ++ ['\n'])

/-- The two results of `MarshalJSON`: the byte slice (`none` is nil) and the error (`none` is
nil). -/
structure MarshalResult (E : Type) where
  bytes : Option (List Char)
  err : Option E
deriving DecidableEq, Repr

namespace LinkedMap

variable {K V E : Type} [DecidableEq K]

/-- The loop of `MarshalJSON` from index `i` on, over the keys not yet visited. -/
def marshalLoop (codec : JSONCodec K V E) (this : LinkedMap K V) :
    List K → Nat → List Char → Except E (List Char)
  | [], _, buf => Except.ok buf
  | k :: rest, i, buf =>
    let buf1 := if i > 0 then buf ++ [','] else buf
    match Encode (codec.key this.escapeHTML) buf1 k with
    | Except.error err => Except.error err
    | Except.ok buf2 =>
      let buf3 := buf2 ++ [':']
      let val := this.Get k
      match Encode (codec.any this.escapeHTML) buf3 val with
      | Except.error err => Except.error err
      | Except.ok buf4 => marshalLoop codec this rest (i + 1) buf4

/-- The method `MarshalJSON`: its two results, and the receiver after the call. -/
def MarshalJSON (codec : JSONCodec K V E) (this : LinkedMap K V) :
    MarshalResult E × LinkedMap K V :=
  match marshalLoop codec this this.keys 0 ['{'] with
  | Except.error err => ({ bytes := none, err := some err }, this)
  | Except.ok buf => ({ bytes := some (buf ++ ['}']), err := none }, this)

end LinkedMap

/-! ### A concrete codec: string keys and integer values -/

/-- Lower-case hexadecimal digit of a number below sixteen. -/
def hexDigit (n : Nat) : Char :=
  if n < 10 then Char.ofNat (48 + n) else Char.ofNat (87 + n)

/-- The six-character escape `\uXXXX` of a code point below `0x10000`. -/
def unicodeEscape (n : Nat) : List Char :=
  ['\\', 'u', hexDigit (n / 4096 % 16), hexDigit (n / 256 % 16), hexDigit (n / 16 % 16),
    hexDigit (n % 16)]

/-- How `encoding/json` writes one character of a string: the quote, the backslash and the
control characters are escaped, so are `<`, `>`, `&` when `escapeHTML` is set, and the line
separators U+2028 and U+2029. -/
def jsonEscapeChar (escapeHTML : Bool) (c : Char) : List Char :=
  if c = '"' then ['\\', '"']
  else if c = '\\' then ['\\', '\\']
  else if c = '\n' then ['\\', 'n']
  else if c = '\r' then ['\\', 'r']
  else if c = '\t' then ['\\', 't']
  else if c.toNat = 8 then ['\\', 'b']
  else if c.toNat = 12 then ['\\', 'f']
  else if c.toNat < 32 then unicodeEscape c.toNat
  else if escapeHTML && (c = '<' || c = '>' || c = '&') then unicodeEscape c.toNat
  else if c.toNat = 8232 || c.toNat = 8233 then unicodeEscape c.toNat
  else [c]

/-- The compact JSON encoding of a string. -/
def jsonString (escapeHTML : Bool) (s : String) : List Char :=
  ['"'] ++ (s.toList.map (jsonEscapeChar escapeHTML)).flatten ++ ['"']

/-- The compact JSON encoding of an integer: its decimal digits. -/
def jsonInt (n : Int) : List Char := (toString n).toList

/-- The codec of `LinkedMap[string, int]`: neither encoding can fail. -/
def stringIntCodec : JSONCodec String Int Unit where
  key := fun escapeHTML s => Except.ok (jsonString escapeHTML s)
  value := fun _ n => Except.ok (jsonInt n)

/-! ## `collection_map.go` -/

/-- Modelled from the spec: the type `SafeList` (`NewSafeList`, `PushFront`, `PopBackAll`),
which `collection_map.go` uses and the sources do not contain. The spec gives its contract:
`PushFront` prepends, `PopBackAll` removes every element and returns them oldest first,
leaving the list empty. The elements are kept front first. -/
structure SafeList (V : Type) where
  elems : List V
deriving DecidableEq, Repr

/-- Modelled from the spec: `NewSafeList`, the empty list. -/
def NewSafeList {V : Type} : SafeList V := { elems := [] }

/-- Modelled from the spec: `SafeList.PushFront` prepends the value. -/
def SafeList.PushFront {V : Type} (list : SafeList V) (val : V) : SafeList V :=
  { elems := val :: list.elems }

/-- Modelled from the spec: `SafeList.PopBackAll` returns all elements from the back (the
oldest) to the front, and the list it leaves, which is empty. -/
def SafeList.PopBackAll {V : Type} (list : SafeList V) : List V × SafeList V :=
  (list.elems.reverse, { elems := [] })

/-- The struct `CollectionMap[Key, Value]`: `DataMap` holds one `*SafeList` per key; the
list an entry points to is the entry's value here. -/
structure CollectionMap (Key Value : Type) where
  DataMap : SyncMap Key (SafeList Value)
deriving DecidableEq, Repr

/-- The constructor `NewCollectionMap`. -/
def NewCollectionMap {K V : Type} : CollectionMap K V := { DataMap := [] }

namespace CollectionMap

variable {Key Value : Type} [DecidableEq Key]

/-- The method `Put`: load the list of the key or make a new one, push, store. -/
def Put (this : CollectionMap Key Value) (key : Key) (val : Value) : CollectionMap Key Value :=
  let list : SafeList Value :=
    match SyncMap.Load this.DataMap key with
    | none => NewSafeList
    | some obj => obj
  { DataMap := SyncMap.Store this.DataMap key (list.PushFront val) }

/-- The method `Get`: the drained values and the map after the call. Without an entry the
result is the empty slice `make([]Value, 0)`; with one, `PopBackAll` empties the list the
entry points to, so the entry stays and holds the emptied list. -/
def Get (this : CollectionMap Key Value) (key : Key) : List Value × CollectionMap Key Value :=
  match SyncMap.Load this.DataMap key with
  | none => ([], this)
  | some list =>
    let popped := list.PopBackAll
    (popped.1, { DataMap := SyncMap.Store this.DataMap key popped.2 })

/-- The method `Delete`. -/
def Delete (this : CollectionMap Key Value) (key : Key) : CollectionMap Key Value :=
  { DataMap := SyncMap.Delete this.DataMap key }

end CollectionMap

/-- A run of `Put(key, v)` calls for the values of `vals`, in order. -/
def CollectionMap.putValues {Key Value : Type} [DecidableEq Key] (m : CollectionMap Key Value)
    (key : Key) (vals : List Value) : CollectionMap Key Value :=
  vals.foldl (fun acc v => acc.Put key v) m

/-- One call of a sequential history on a `CollectionMap`. -/
inductive Call (Key Value : Type) where
  | put (key : Key) (val : Value)
  | get (key : Key)
deriving DecidableEq, Repr

/-- Run a sequential history: the results of its `Get` calls, each with its key, in call
order, and the final map. -/
def runCalls {Key Value : Type} [DecidableEq Key] :
    CollectionMap Key Value → List (Call Key Value) →
      List (Key × List Value) × CollectionMap Key Value
  | m, [] => ([], m)
  | m, Call.put key val :: rest => runCalls (m.Put key val) rest
  | m, Call.get key :: rest =>
    let r := m.Get key
    let out := runCalls r.2 rest
    ((key, r.1) :: out.1, out.2)

/-- The values a history puts under `key`, in call order. -/
def putsUnder {Key Value : Type} [DecidableEq Key] (key : Key) :
    List (Call Key Value) → List Value
  | [] => []
  | Call.put k val :: rest => if k = key then val :: putsUnder key rest else putsUnder key rest
  | Call.get _ :: rest => putsUnder key rest

/-- The concatenation of the results logged for `key`. -/
def drainedUnder {Key Value : Type} [DecidableEq Key] (key : Key) :
    List (Key × List Value) → List Value
  | [] => []
  | (k, vals) :: rest => if k = key then vals ++ drainedUnder key rest else drainedUnder key rest

/-! ## Reachable states of `LinkedMap` -/

/-- The states reachable from `NewLinkedMap` by `Put` and `Delete`. -/
inductive ReachablePD {K V : Type} [DecidableEq K] : LinkedMap K V → Prop where
  | new : ReachablePD NewLinkedMap
  | put (m : LinkedMap K V) (key : K) (value : V) : ReachablePD m → ReachablePD (m.Put key value)
  | delete (m : LinkedMap K V) (key : K) : ReachablePD m → ReachablePD (m.Delete key)

/-- The states reachable from `NewLinkedMap` by `Put`, `Delete`, `Sort` (any comparator, any
sort routine) and `SortKeys` with a function that only permutes the slice. `nilValue` tells
which values of `V` are the nil interface value. -/
inductive Reachable {K V : Type} [DecidableEq K] (nilValue : V → Bool) :
    LinkedMap K V → Prop where
  | new : Reachable nilValue NewLinkedMap
  | put (m : LinkedMap K V) (key : K) (value : V) :
      Reachable nilValue m → Reachable nilValue (m.Put key value)
  | delete (m : LinkedMap K V) (key : K) :
      Reachable nilValue m → Reachable nilValue (m.Delete key)
  | sort (m m2 : LinkedMap K V) (routine : SortRoutine (Pair K V))
      (lessFunc : Pair K V → Pair K V → Bool) :
      Reachable nilValue m → m.Sort' nilValue routine lessFunc = some m2 →
      Reachable nilValue m2
  | sortKeys (m : LinkedMap K V) (sortFunc : List K → List K) :
      (∀ xs, (sortFunc xs).Perm xs) → Reachable nilValue m →
      Reachable nilValue (m.SortKeys sortFunc)

/-- The key/store invariant: the key sequence has no duplicates, the store has one entry per
key, and a key is in the key sequence exactly when the store has an entry for it. -/
def Invariant {K V : Type} [DecidableEq K] (m : LinkedMap K V) : Prop :=
  m.keys.Nodup ∧ (m.values.map Prod.fst).Nodup ∧ ∀ k, k ∈ m.keys ↔ (m.Get k).isSome = true

/-- The pairs met by walking `Keys()` in order and fetching each value with `Get`. -/
def walkPairs {K V : Type} [DecidableEq K] (m : LinkedMap K V) : List (Option (Pair K V)) :=
  m.Keys.map (fun k => (m.Get k).map (fun v => Pair.mk k v))

/-- A run of `Put` calls, in order, starting from the state `m`. -/
def putAll {K V : Type} [DecidableEq K] (m : LinkedMap K V) (ps : List (K × V)) :
    LinkedMap K V :=
  ps.foldl (fun acc p => acc.Put p.1 p.2) m

/-- The distinct elements of a sequence, each at the place of its first occurrence. -/
def firstOccurrences {K : Type} [DecidableEq K] : List K → List K
  | [] => []
  | k :: rest => k :: (firstOccurrences rest).filter (fun x => decide (x ≠ k))

/-! ## Sample states and comparators -/

/-- The state after `Put("a",1)`, `Put("b",2)`, `Delete("a")`, `Put("c",3)` on a new map. -/
def sampleMap : LinkedMap String Int :=
  (((NewLinkedMap.Put "a" 1).Put "b" 2).Delete "a").Put "c" 3

/-- Comparator on pairs: by value, descending. -/
def byValueDesc (a b : Pair String Int) : Bool := decide (b.value < a.value)

/-- The state `sampleMap` after `Sort(byValueDesc)`. -/
def sampleSorted : LinkedMap String Int :=
  { keys := ["c", "b"], values := [("b", 2), ("c", 3)], escapeHTML := true }

/-! ## Vocabulary for the statements on `MarshalJSON` -/

/-- Whether an encoding step succeeded. -/
def succeeded {E α : Type} : Except E α → Bool
  | Except.ok _ => true
  | Except.error _ => false

/-- The bytes an encoding step produced (nothing when it failed). -/
def written {E : Type} : Except E (List Char) → List Char
  | Except.ok bytes => bytes
  | Except.error _ => []

/-- The first error of a sequence of results, if any. -/
def firstError {E α : Type} : List (Except E α) → Option E
  | [] => none
  | Except.error err :: _ => some err
  | Except.ok _ :: rest => firstError rest

/-- The results of encoding, in key order, each key and then the value `Get` returns for
it. -/
def encodeResults {K V E : Type} [DecidableEq K] (codec : JSONCodec K V E)
    (m : LinkedMap K V) : List (Except E (List Char)) :=
  (m.Keys.map (fun k => [codec.key m.escapeHTML k, codec.any m.escapeHTML (m.Get k)])).flatten

/-- What the encoder writes for the key `k` and for the value `Get(k)`, with a colon
between. -/
def pairBytes {K V E : Type} [DecidableEq K] (codec : JSONCodec K V E) (m : LinkedMap K V)
    (k : K) : List Char :=
  written (Encode (codec.key m.escapeHTML) [] k) ++ [':']
    ++ written (Encode (codec.any m.escapeHTML) [] (m.Get k))

/-- The bytes the loop of `MarshalJSON` appends from index `i` on, when nothing fails. -/
def bodyFrom {K V E : Type} [DecidableEq K] (codec : JSONCodec K V E) (m : LinkedMap K V) :
    Nat → List K → List Char
  | _, [] => []
  | i, k :: rest =>
    (if i > 0 then [','] else []) ++ pairBytes codec m k ++ bodyFrom codec m (i + 1) rest

/-- The map built by `Put("a",1)`, `Put("b",2)`, `Put("c",3)` on a new map. -/
def abcMap : LinkedMap String Int :=
  ((NewLinkedMap.Put "a" 1).Put "b" 2).Put "c" 3

/-- The compact encoding of what `Get` returns from a `LinkedMap[string, int]`. -/
def jsonAnyInt : Option Int → List Char
  | none => ['n', 'u', 'l', 'l']
  | some n => jsonInt n

/-- The values of the Go type `any` used in the samples: the nil interface value, an `int`
or a `string`. -/
inductive AnyValue where
  | nil
  | int (n : Int)
  | str (s : String)
deriving DecidableEq, Repr

/-- Which values of `any` are the nil interface value. -/
def AnyValue.isNil : AnyValue → Bool
  | AnyValue.nil => true
  | _ => false

/-- The `LinkedMap[string, any]` after `Put("a", nil)` on a new map. -/
def nilValueMap : LinkedMap String AnyValue :=
  NewLinkedMap.Put "a" AnyValue.nil

/-- The comparator that is never true (no pair is less than another). -/
def neverLess (_ _ : Pair String AnyValue) : Bool := false

/-- The `CollectionMap` after `Put("a",1)`, `Put("b",2)`, `Put("a",3)` on a new map. -/
def sampleQueues : CollectionMap String Nat :=
  ((NewCollectionMap.Put "a" 1).Put "b" 2).Put "a" 3

/-! ## `Range` -/

/-- The method `CollectionMap.Range`: `sync.Map.Range` visits every entry once (the callback
always returns true) and passes the key with the drained values of its list to `fn`. The
result is the sequence of the calls of `fn`, as `(key, values)`, and the map after the call,
in which every list is the emptied one. The callback is taken not to call into the map. -/
def CollectionMap.Range {Key Value : Type} (this : CollectionMap Key Value) :
    List (Key × List Value) × CollectionMap Key Value :=
  (this.DataMap.map (fun e => (e.1, e.2.PopBackAll.1)),
    { DataMap := this.DataMap.map (fun e => (e.1, e.2.PopBackAll.2)) })

/-- Model of `sync.Map.Range` with the callback of `LinkedMap.Range`: the entries are
visited in turn; on each, the key and the value are asserted to be a `Key` and a `Value`
(`k.(Key)`, `v.(Value)`, a panic on the nil interface value, `none` here), then `fn` is
called, and the iteration stops after the first call that returns false. The result is the
sequence of the calls of `fn`. -/
def LinkedMap.rangeCalls {K V : Type} (nilKey : K → Bool) (nilValue : V → Bool) :
    SyncMap K V → (K → V → Bool) → Option (List (K × V))
  | [], _ => some []
  | (k, v) :: rest, fn =>
    match assertType nilKey k with
    | none => none
    | some keyObj =>
      match assertType nilValue v with
      | none => none
      | some valObj =>
        if fn keyObj valObj then
          (LinkedMap.rangeCalls nilKey nilValue rest fn).map
            (fun calls => (keyObj, valObj) :: calls)
        else some [(keyObj, valObj)]

/-- The method `LinkedMap.Range`: the calls of `fn`, as `(key, value)`, and the receiver
after the call, or `none` when a type assertion panics. The callback is taken not to call
into the map. -/
def LinkedMap.Range {K V : Type} (nilKey : K → Bool) (nilValue : V → Bool)
    (this : LinkedMap K V) (fn : K → V → Bool) : Option (List (K × V) × LinkedMap K V) :=
  (LinkedMap.rangeCalls nilKey nilValue this.values fn).map (fun calls => (calls, this))

/-! ## The statements of `LinkedMap.Put`, one at a time -/

/-- The first statement of `Put`, the `if` with its `Load` and the append to `this.keys`. -/
def LinkedMap.putAppend {K V : Type} [DecidableEq K] (this : LinkedMap K V) (key : K) :
    LinkedMap K V :=
  match SyncMap.Load this.values key with
  | none => { this with keys := this.keys ++ [key] }
  | some _ => this

/-- The second statement of `Put`, `this.values.Store(key, value)`. -/
def LinkedMap.putStore {K V : Type} [DecidableEq K] (this : LinkedMap K V) (key : K)
    (value : V) : LinkedMap K V :=
  { this with values := SyncMap.Store this.values key value }

/-- The states of the map another goroutine can observe while `Put(key, value)` runs: before
the call, between its two statements, and after it. -/
def LinkedMap.putObservable {K V : Type} [DecidableEq K] (this : LinkedMap K V) (key : K)
    (value : V) : List (LinkedMap K V) :=
  [this, this.putAppend key, (this.putAppend key).putStore key value]

/-! ## Interleavings of `CollectionMap.Put` and `CollectionMap.Get` -/

/-- A call of `Put` or `Get` in progress: the atomic step it runs next, with its locals.
`list` is the address of a `SafeList` (the pointer the source holds). -/
inductive Task (Key Value : Type) where
  | putLoad (key : Key) (val : Value)
  | putPush (key : Key) (val : Value) (list : Nat)
  | putStore (key : Key) (list : Nat)
  | getLoad (key : Key)
  | getPop (key : Key) (list : Nat)
  | finished
deriving DecidableEq, Repr

/-- The state goroutines share: `DataMap` with the address of a list per key, the lists
allocated so far by address, the calls in progress, and the results of the `Get` calls that
returned, in order of return. -/
structure Shared (Key Value : Type) where
  DataMap : SyncMap Key Nat
  heap : List (SafeList Value)
  tasks : List (Task Key Value)
  results : List (Key × List Value)
deriving DecidableEq, Repr

/-- Replace the element at index `i`. -/
def updateAt {α : Type} : List α → Nat → (α → α) → List α
  | [], _, _ => []
  | a :: rest, 0, f => f a :: rest
  | a :: rest, i + 1, f => a :: updateAt rest i f

/-- One atomic step of the call number `i`:
* `Put`: `Load` (on a miss `NewSafeList()` makes a fresh list, local to the call), then
  `PushFront` on the list held, then `Store` of its address;
* `Get`: `Load` (on a miss the call returns the empty slice), then `PopBackAll` on the list
  held, whose result the call returns. -/
def Shared.step {Key Value : Type} [DecidableEq Key] (s : Shared Key Value) (i : Nat) :
    Shared Key Value :=
  match s.tasks.getD i Task.finished with
  | Task.putLoad key val =>
    match SyncMap.Load s.DataMap key with
    | none =>
      { s with heap := s.heap ++ [NewSafeList],
               tasks := updateAt s.tasks i (fun _ => Task.putPush key val s.heap.length) }
    | some list => { s with tasks := updateAt s.tasks i (fun _ => Task.putPush key val list) }
  | Task.putPush key val list =>
    { s with heap := updateAt s.heap list (fun l => l.PushFront val),
             tasks := updateAt s.tasks i (fun _ => Task.putStore key list) }
  | Task.putStore key list =>
    { s with DataMap := SyncMap.Store s.DataMap key list,
             tasks := updateAt s.tasks i (fun _ => Task.finished) }
  | Task.getLoad key =>
    match SyncMap.Load s.DataMap key with
    | none =>
      { s with results := s.results ++ [(key, [])],
               tasks := updateAt s.tasks i (fun _ => Task.finished) }
    | some list => { s with tasks := updateAt s.tasks i (fun _ => Task.getPop key list) }
  | Task.getPop key list =>
    { s with results := s.results ++ [(key, ((s.heap.getD list NewSafeList).PopBackAll).1)],
             heap := updateAt s.heap list (fun l => (l.PopBackAll).2),
             tasks := updateAt s.tasks i (fun _ => Task.finished) }
  | Task.finished => s

/-- Run a schedule: the call whose number comes next in the list takes one step. -/
def Shared.run {Key Value : Type} [DecidableEq Key] (s : Shared Key Value)
    (schedule : List Nat) : Shared Key Value :=
  schedule.foldl Shared.step s

/-- The calls `tasks` issued at once on a new `CollectionMap`. -/
def Shared.start {Key Value : Type} (tasks : List (Task Key Value)) : Shared Key Value :=
  { DataMap := [], heap := [], tasks := tasks, results := [] }

/-- The map of a shared state as the sequential model sees it: every key with the list its
address points to. -/
def Shared.view {Key Value : Type} (s : Shared Key Value) : CollectionMap Key Value :=
  { DataMap := s.DataMap.map (fun e => (e.1, s.heap.getD e.2 NewSafeList)) }

/-- Two concurrent calls `Put("k", 1)` and `Put("k", 2)` on a new map, and two calls
`Get("k")` that run after them. -/
def racingPuts : List (Task String Nat) :=
  [Task.putLoad "k" 1, Task.putLoad "k" 2, Task.getLoad "k", Task.getLoad "k"]

end container

/-! ## Lemmas on the `sync.Map` model -/

namespace container

section SyncMapLemmas

variable {K V : Type} [DecidableEq K]

theorem SyncMap.load_store_same (s : SyncMap K V) (key : K) (value : V) :
    SyncMap.Load (SyncMap.Store s key value) key = some value := by
  induction s with
  | nil => simp [SyncMap.Store, SyncMap.Load]
  | cons e rest ih =>
    obtain ⟨k, v⟩ := e
    by_cases h : k = key
    · simp [SyncMap.Store, SyncMap.Load, h]
    · simp [SyncMap.Store, SyncMap.Load, h, ih]

theorem SyncMap.load_store_other (s : SyncMap K V) (key other : K) (value : V)
    (hne : other ≠ key) :
    SyncMap.Load (SyncMap.Store s key value) other = SyncMap.Load s other := by
  induction s with
  | nil => simp [SyncMap.Store, SyncMap.Load, Ne.symm hne]
  | cons e rest ih =>
    obtain ⟨k, v⟩ := e
    by_cases h : k = key
    · subst h
      simp [SyncMap.Store, SyncMap.Load, Ne.symm hne]
    · by_cases h2 : k = other
      · subst h2
        simp [SyncMap.Store, SyncMap.Load, h]
      · simp [SyncMap.Store, SyncMap.Load, h, h2, ih]

theorem SyncMap.load_delete_same (s : SyncMap K V) (key : K) :
    SyncMap.Load (SyncMap.Delete s key) key = none := by
  induction s with
  | nil => simp [SyncMap.Delete, SyncMap.Load]
  | cons e rest ih =>
    obtain ⟨k, v⟩ := e
    by_cases h : k = key
    · simpa [SyncMap.Delete, List.filter_cons, h] using ih
    · simpa [SyncMap.Delete, List.filter_cons, h, SyncMap.Load] using ih

theorem SyncMap.load_delete_other (s : SyncMap K V) (key other : K) (hne : other ≠ key) :
    SyncMap.Load (SyncMap.Delete s key) other = SyncMap.Load s other := by
  induction s with
  | nil => simp [SyncMap.Delete, SyncMap.Load]
  | cons e rest ih =>
    obtain ⟨k, v⟩ := e
    by_cases h : k = key
    · subst h
      have : ¬ k = other := fun h2 => hne h2.symm
      simpa [SyncMap.Delete, List.filter_cons, SyncMap.Load, this] using ih
    · by_cases h2 : k = other
      · subst h2
        simp [SyncMap.Delete, List.filter_cons, h, SyncMap.Load]
      · simpa [SyncMap.Delete, List.filter_cons, h, SyncMap.Load, h2] using ih

theorem SyncMap.load_isSome_iff (s : SyncMap K V) (key : K) :
    (SyncMap.Load s key).isSome = true ↔ key ∈ s.map Prod.fst := by
  induction s with
  | nil => simp [SyncMap.Load]
  | cons e rest ih =>
    obtain ⟨k, v⟩ := e
    by_cases h : k = key
    · simp [SyncMap.Load, h]
    · have h2 : ¬ key = k := fun h3 => h h3.symm
      simp [SyncMap.Load, h, h2, ih]

theorem SyncMap.load_eq_none_iff (s : SyncMap K V) (key : K) :
    SyncMap.Load s key = none ↔ key ∉ s.map Prod.fst := by
  rw [← SyncMap.load_isSome_iff]
  cases SyncMap.Load s key <;> simp

theorem SyncMap.load_delete_absent (s : SyncMap K V) (key other : K)
    (habs : SyncMap.Load s key = none) :
    SyncMap.Load (SyncMap.Delete s key) other = SyncMap.Load s other := by
  by_cases h : other = key
  · subst h
    rw [SyncMap.load_delete_same, habs]
  · exact SyncMap.load_delete_other s key other h

theorem SyncMap.keys_store (s : SyncMap K V) (key : K) (value : V) :
    (SyncMap.Store s key value).map Prod.fst =
      if key ∈ s.map Prod.fst then s.map Prod.fst else s.map Prod.fst ++ [key] := by
  induction s with
  | nil => simp [SyncMap.Store]
  | cons e rest ih =>
    obtain ⟨k, v⟩ := e
    by_cases h : k = key
    · simp [SyncMap.Store, h]
    · have h2 : ¬ key = k := fun h3 => h h3.symm
      simp only [SyncMap.Store, h, if_false, List.map_cons, ih, List.mem_cons, h2, false_or]
      split <;> simp

theorem SyncMap.nodup_store (s : SyncMap K V) (key : K) (value : V)
    (h : (s.map Prod.fst).Nodup) : ((SyncMap.Store s key value).map Prod.fst).Nodup := by
  rw [SyncMap.keys_store]
  split
  · exact h
  · rename_i hk
    exact List.Nodup.append h (List.nodup_singleton key) (by simpa using hk)

theorem SyncMap.keys_delete (s : SyncMap K V) (key : K) :
    (SyncMap.Delete s key).map Prod.fst = (s.map Prod.fst).filter (fun k => decide (k ≠ key)) := by
  induction s with
  | nil => simp [SyncMap.Delete]
  | cons e rest ih =>
    obtain ⟨k, v⟩ := e
    by_cases h : k = key
    · simpa [SyncMap.Delete, List.filter_cons, h] using ih
    · simpa [SyncMap.Delete, List.filter_cons, h] using ih

theorem SyncMap.nodup_delete (s : SyncMap K V) (key : K)
    (h : (s.map Prod.fst).Nodup) : ((SyncMap.Delete s key).map Prod.fst).Nodup := by
  rw [SyncMap.keys_delete]
  exact h.filter _

end SyncMapLemmas

/-! ## Lemmas on `LinkedMap` -/

section LinkedMapLemmas

variable {K V : Type} [DecidableEq K]

theorem LinkedMap.removeKey_eq_erase (keys : List K) (key : K) :
    LinkedMap.removeKey keys key = keys.erase key := by
  induction keys with
  | nil => simp [LinkedMap.removeKey]
  | cons k rest ih =>
    by_cases h : k = key
    · simp [LinkedMap.removeKey, h]
    · simp [LinkedMap.removeKey, h, List.erase_cons, ih]

theorem LinkedMap.removeKey_absent (keys : List K) (key : K) (h : key ∉ keys) :
    LinkedMap.removeKey keys key = keys := by
  rw [LinkedMap.removeKey_eq_erase]
  exact List.erase_of_not_mem h

theorem LinkedMap.get_put_same (m : LinkedMap K V) (key : K) (value : V) :
    (m.Put key value).Get key = some value := by
  simp [LinkedMap.Put, LinkedMap.Get, SyncMap.load_store_same]

theorem LinkedMap.get_put_other (m : LinkedMap K V) (key other : K) (value : V)
    (hne : other ≠ key) : (m.Put key value).Get other = m.Get other := by
  simp [LinkedMap.Put, LinkedMap.Get, SyncMap.load_store_other _ _ _ _ hne]

theorem LinkedMap.keys_put_present (m : LinkedMap K V) (key : K) (value : V)
    (h : (m.Get key).isSome = true) : (m.Put key value).keys = m.keys := by
  unfold LinkedMap.Get at h
  unfold LinkedMap.Put
  cases hl : SyncMap.Load m.values key with
  | none => rw [hl] at h; simp at h
  | some v => rfl

theorem LinkedMap.keys_put_absent (m : LinkedMap K V) (key : K) (value : V)
    (h : m.Get key = none) : (m.Put key value).keys = m.keys ++ [key] := by
  unfold LinkedMap.Get at h
  unfold LinkedMap.Put
  rw [h]

theorem invariant_new : Invariant (NewLinkedMap : LinkedMap K V) := by
  refine ⟨by simp [NewLinkedMap], by simp [NewLinkedMap], ?_⟩
  intro k
  simp [NewLinkedMap, LinkedMap.Get, SyncMap.Load]

theorem invariant_put (m : LinkedMap K V) (key : K) (value : V) (h : Invariant m) :
    Invariant (m.Put key value) := by
  obtain ⟨hk, hs, hiff⟩ := h
  have hvals : (m.Put key value).values = SyncMap.Store m.values key value := rfl
  refine ⟨?_, ?_, ?_⟩
  · cases hg : m.Get key with
    | none =>
      rw [LinkedMap.keys_put_absent m key value hg]
      have hnot : key ∉ m.keys := by
        intro hmem
        have := (hiff key).1 hmem
        rw [hg] at this
        simp at this
      exact List.Nodup.append hk (List.nodup_singleton key) (by simpa using hnot)
    | some v =>
      rw [LinkedMap.keys_put_present m key value (by rw [hg]; rfl)]
      exact hk
  · rw [hvals]
    exact SyncMap.nodup_store _ _ _ hs
  · intro k
    by_cases hkk : k = key
    · subst hkk
      rw [LinkedMap.get_put_same]
      cases hg : m.Get k with
      | none => rw [LinkedMap.keys_put_absent m k value hg]; simp
      | some v =>
        rw [LinkedMap.keys_put_present m k value (by rw [hg]; rfl)]
        have := (hiff k).2 (by rw [hg]; rfl)
        simpa using this
    · rw [LinkedMap.get_put_other m key k value hkk, ← hiff k]
      cases hg : m.Get key with
      | none => rw [LinkedMap.keys_put_absent m key value hg]; simp [hkk]
      | some v => rw [LinkedMap.keys_put_present m key value (by rw [hg]; rfl)]

theorem LinkedMap.get_delete_same (m : LinkedMap K V) (key : K) :
    (m.Delete key).Get key = none := by
  simp [LinkedMap.Delete, LinkedMap.Get, SyncMap.load_delete_same]

theorem LinkedMap.get_delete_other (m : LinkedMap K V) (key other : K) (hne : other ≠ key) :
    (m.Delete key).Get other = m.Get other := by
  simp [LinkedMap.Delete, LinkedMap.Get, SyncMap.load_delete_other _ _ _ hne]

theorem invariant_delete (m : LinkedMap K V) (key : K) (h : Invariant m) :
    Invariant (m.Delete key) := by
  obtain ⟨hk, hs, hiff⟩ := h
  have hkeys : (m.Delete key).keys = m.keys.erase key := LinkedMap.removeKey_eq_erase _ _
  refine ⟨?_, ?_, ?_⟩
  · rw [hkeys]
    exact hk.erase key
  · exact SyncMap.nodup_delete _ _ hs
  · intro k
    rw [hkeys, hk.mem_erase_iff]
    by_cases hkk : k = key
    · subst hkk
      simp [LinkedMap.get_delete_same]
    · rw [LinkedMap.get_delete_other m key k hkk, ← hiff k]
      simp [hkk]

theorem invariant_sortKeys (m : LinkedMap K V) (sortFunc : List K → List K)
    (hperm : ∀ xs, (sortFunc xs).Perm xs) (h : Invariant m) :
    Invariant (m.SortKeys sortFunc) := by
  obtain ⟨hk, hs, hiff⟩ := h
  refine ⟨?_, hs, ?_⟩
  · exact (hperm m.keys).nodup_iff.2 hk
  · intro k
    show k ∈ sortFunc m.keys ↔ _
    rw [(hperm m.keys).mem_iff]
    exact hiff k

theorem allFilled_pairs (s : SyncMap K V) (keys : List K) (pairs : List (Pair K V))
    (h : allFilled (keys.map (fun key => (SyncMap.Load s key).map (fun val => Pair.mk key val)))
      = some pairs) :
    pairs.map Pair.key = keys ∧ ∀ p ∈ pairs, SyncMap.Load s p.key = some p.value := by
  induction keys generalizing pairs with
  | nil =>
    simp [allFilled] at h
    subst h
    simp
  | cons k rest ih =>
    simp only [List.map_cons] at h
    cases hl : SyncMap.Load s k with
    | none => rw [hl] at h; simp [allFilled] at h
    | some v =>
      rw [hl] at h
      simp only [Option.map_some', allFilled] at h
      cases hr : allFilled (rest.map
          (fun key => (SyncMap.Load s key).map (fun val => Pair.mk key val))) with
      | none => rw [hr] at h; simp at h
      | some ps =>
        rw [hr] at h
        simp at h
        subst h
        obtain ⟨h1, h2⟩ := ih ps hr
        refine ⟨by simp [h1], ?_⟩
        intro p hp
        rcases List.mem_cons.1 hp with rfl | hp
        · exact hl
        · exact h2 p hp

theorem allFilled_pairs_exists (s : SyncMap K V) (keys : List K)
    (h : ∀ k ∈ keys, (SyncMap.Load s k).isSome = true) :
    ∃ pairs, allFilled (keys.map
      (fun key => (SyncMap.Load s key).map (fun val => Pair.mk key val))) = some pairs := by
  induction keys with
  | nil => exact ⟨[], rfl⟩
  | cons k rest ih =>
    obtain ⟨ps, hps⟩ := ih (fun k hk => h k (List.mem_cons_of_mem _ hk))
    have hk := h k (List.mem_cons_self _ _)
    cases hl : SyncMap.Load s k with
    | none => rw [hl] at hk; simp at hk
    | some v =>
      refine ⟨Pair.mk k v :: ps, ?_⟩
      simp only [List.map_cons, hl, Option.map_some', allFilled, hps]

theorem assertType_eq_some {α : Type} (isNil : α → Bool) (x y : α)
    (h : assertType isNil x = some y) : y = x ∧ isNil x = false := by
  unfold assertType at h
  cases hx : isNil x with
  | true => rw [hx] at h; simp at h
  | false =>
    rw [hx] at h
    simp at h
    exact ⟨h.symm, rfl⟩

theorem assertType_of_not_nil {α : Type} (isNil : α → Bool) (x : α) (h : isNil x = false) :
    assertType isNil x = some x := by
  unfold assertType
  rw [h]
  rfl

theorem LinkedMap.sortSlots_eq (nilValue : V → Bool) (s : SyncMap K V) (keys : List K)
    (slots : List (Option (Pair K V)))
    (h : LinkedMap.sortSlots nilValue s keys = some slots) :
    slots = keys.map (fun key => (SyncMap.Load s key).map (fun val => Pair.mk key val)) := by
  induction keys generalizing slots with
  | nil =>
    simp [LinkedMap.sortSlots] at h
    simp [h]
  | cons k rest ih =>
    simp only [LinkedMap.sortSlots] at h
    cases hl : SyncMap.Load s k with
    | none =>
      rw [hl] at h
      cases hr : LinkedMap.sortSlots nilValue s rest with
      | none => rw [hr] at h; simp at h
      | some tail =>
        rw [hr] at h
        simp at h
        subst h
        simp [hl, ih tail hr]
    | some val =>
      rw [hl] at h
      simp only [] at h
      cases ha : assertType nilValue val with
      | none => rw [ha] at h; simp at h
      | some v =>
        rw [ha] at h
        obtain ⟨hv, _⟩ := assertType_eq_some nilValue val v ha
        subst hv
        cases hr : LinkedMap.sortSlots nilValue s rest with
        | none => rw [hr] at h; simp at h
        | some tail =>
          rw [hr] at h
          simp at h
          subst h
          simp [hl, ih tail hr]

theorem LinkedMap.sortSlots_of_not_nil (nilValue : V → Bool) (s : SyncMap K V) (keys : List K)
    (hnil : ∀ k ∈ keys, ∀ v, SyncMap.Load s k = some v → nilValue v = false) :
    LinkedMap.sortSlots nilValue s keys
      = some (keys.map (fun key => (SyncMap.Load s key).map (fun val => Pair.mk key val))) := by
  induction keys with
  | nil => rfl
  | cons k rest ih =>
    have ih2 := ih (fun k2 hk2 => hnil k2 (List.mem_cons_of_mem _ hk2))
    simp only [LinkedMap.sortSlots, List.map_cons]
    cases hl : SyncMap.Load s k with
    | none => simp [ih2]
    | some val =>
      have hv := hnil k (List.mem_cons_self _ _) val hl
      simp [assertType_of_not_nil nilValue val hv, ih2]

theorem LinkedMap.sort_spec (nilValue : V → Bool) (routine : SortRoutine (Pair K V))
    (m m2 : LinkedMap K V) (lessFunc : Pair K V → Pair K V → Bool)
    (h : m.Sort' nilValue routine lessFunc = some m2) :
    ∃ pairs, allFilled (m.keys.map
        (fun key => (SyncMap.Load m.values key).map (fun val => Pair.mk key val))) = some pairs ∧
      m2 = { m with keys := (routine.run lessFunc pairs).map Pair.key } := by
  unfold LinkedMap.Sort' at h
  cases hs : LinkedMap.sortPairs nilValue m with
  | none => rw [hs] at h; simp at h
  | some slots =>
    rw [hs] at h
    simp only [] at h
    have hslots := LinkedMap.sortSlots_eq nilValue m.values m.keys slots hs
    cases hp : allFilled slots with
    | none => rw [hp] at h; simp at h
    | some pairs =>
      rw [hp] at h
      simp at h
      rw [hslots] at hp
      exact ⟨pairs, hp, h.symm⟩

theorem LinkedMap.sort_keys_perm (nilValue : V → Bool) (routine : SortRoutine (Pair K V))
    (m m2 : LinkedMap K V) (lessFunc : Pair K V → Pair K V → Bool)
    (h : m.Sort' nilValue routine lessFunc = some m2) :
    m2.keys.Perm m.keys ∧ m2.values = m.values := by
  obtain ⟨pairs, hp, rfl⟩ := LinkedMap.sort_spec nilValue routine m m2 lessFunc h
  obtain ⟨hkeys, _⟩ := allFilled_pairs m.values m.keys pairs hp
  refine ⟨?_, rfl⟩
  show ((routine.run lessFunc pairs).map Pair.key).Perm m.keys
  rw [← hkeys]
  exact (routine.perm lessFunc pairs).map Pair.key

theorem invariant_sort (nilValue : V → Bool) (routine : SortRoutine (Pair K V))
    (m m2 : LinkedMap K V) (lessFunc : Pair K V → Pair K V → Bool)
    (h : m.Sort' nilValue routine lessFunc = some m2)
    (hinv : Invariant m) : Invariant m2 := by
  obtain ⟨hperm, hvals⟩ := LinkedMap.sort_keys_perm nilValue routine m m2 lessFunc h
  obtain ⟨hk, hs, hiff⟩ := hinv
  refine ⟨hperm.nodup_iff.2 hk, by rw [hvals]; exact hs, ?_⟩
  intro k
  rw [hperm.mem_iff, hiff k]
  unfold LinkedMap.Get
  rw [hvals]

theorem invariant_of_reachable (nilValue : V → Bool) (m : LinkedMap K V)
    (h : Reachable nilValue m) : Invariant m := by
  induction h with
  | new => exact invariant_new
  | put m key value _ ih => exact invariant_put m key value ih
  | delete m key _ ih => exact invariant_delete m key ih
  | sort m m2 routine lessFunc _ hs ih =>
    exact invariant_sort nilValue routine m m2 lessFunc hs ih
  | sortKeys m sortFunc hperm _ ih => exact invariant_sortKeys m sortFunc hperm ih

theorem reachable_of_reachablePD (nilValue : V → Bool) (m : LinkedMap K V)
    (h : ReachablePD m) : Reachable nilValue m := by
  induction h with
  | new => exact Reachable.new
  | put m key value _ ih => exact Reachable.put m key value ih
  | delete m key _ ih => exact Reachable.delete m key ih

theorem invariant_of_reachablePD (m : LinkedMap K V) (h : ReachablePD m) : Invariant m :=
  invariant_of_reachable notInterface m (reachable_of_reachablePD notInterface m h)

end LinkedMapLemmas

section
variable {K V : Type} [DecidableEq K]

theorem firstOccurrences_nodup_eq (ks : List K) (h : ks.Nodup) : firstOccurrences ks = ks := by
  induction ks with
  | nil => rfl
  | cons k rest ih =>
    obtain ⟨hk, hrest⟩ := List.nodup_cons.1 h
    simp only [firstOccurrences, ih hrest]
    congr 1
    rw [List.filter_eq_self]
    intro a ha
    have : a ≠ k := fun h2 => hk (h2 ▸ ha)
    simpa using this

theorem keys_putAll (ps : List (K × V)) (m : LinkedMap K V) (h : Invariant m) :
    (putAll m ps).keys =
      m.keys ++ (firstOccurrences (ps.map Prod.fst)).filter (fun x => decide (x ∉ m.keys)) := by
  induction ps generalizing m with
  | nil => simp [putAll, firstOccurrences]
  | cons p ps ih =>
    have hstep : putAll m (p :: ps) = putAll (m.Put p.1 p.2) ps := rfl
    rw [hstep, ih _ (invariant_put m p.1 p.2 h)]
    cases hg : m.Get p.1 with
    | none =>
      have hnot : p.1 ∉ m.keys := by
        intro hmem
        have := (h.2.2 p.1).1 hmem
        rw [hg] at this
        simp at this
      rw [LinkedMap.keys_put_absent m p.1 p.2 hg]
      simp only [List.map_cons, firstOccurrences, List.filter_cons, hnot, not_false_eq_true,
        decide_True, if_true, List.filter_filter, List.append_assoc, List.singleton_append]
      congr 2
      apply List.filter_congr
      intro x _
      by_cases hx : x = p.1 <;> simp [hx, hnot]
    | some v =>
      have hmem : p.1 ∈ m.keys := (h.2.2 p.1).2 (by rw [hg]; rfl)
      rw [LinkedMap.keys_put_present m p.1 p.2 (by rw [hg]; rfl)]
      simp only [List.map_cons, firstOccurrences, List.filter_cons, hmem, not_true_eq_false,
        decide_False, if_false, List.filter_filter]
      congr 1
      apply List.filter_congr
      intro x _
      by_cases hx : x = p.1 <;> simp [hx, hmem]

/-- C1: on a map made by `NewLinkedMap`, after any finite run of `Put` calls `Keys()` is the
sequence of the distinct keys put, each at the place of its first `Put`; when the keys put
are pairwise distinct, `Keys()` is exactly the sequence of keys put. -/
theorem C1_keys_follow_first_put (ps : List (K × V)) :
    (putAll (NewLinkedMap : LinkedMap K V) ps).Keys = firstOccurrences (ps.map Prod.fst) ∧
    ((ps.map Prod.fst).Nodup →
      (putAll (NewLinkedMap : LinkedMap K V) ps).Keys = ps.map Prod.fst) := by
  have hkeys : (putAll (NewLinkedMap : LinkedMap K V) ps).Keys
      = firstOccurrences (ps.map Prod.fst) := by
    show (putAll (NewLinkedMap : LinkedMap K V) ps).keys = _
    rw [keys_putAll ps NewLinkedMap invariant_new]
    simp [NewLinkedMap]
  refine ⟨hkeys, ?_⟩
  intro hnd
  rw [hkeys, firstOccurrences_nodup_eq _ hnd]

end

/-- Witness of C1 at the puts `("a",1)`, `("b",2)`, `("c",3)`. -/
theorem C1_keys_follow_first_put_witness :
    (([("a", 1), ("b", 2), ("c", 3)] : List (String × Int)).map Prod.fst).Nodup ∧
    (putAll (NewLinkedMap : LinkedMap String Int) [("a", 1), ("b", 2), ("c", 3)]).Keys
      = ["a", "b", "c"] :=
  ⟨by decide, (C1_keys_follow_first_put [("a", 1), ("b", 2), ("c", 3)]).2 (by decide)⟩

section
variable {K V : Type} [DecidableEq K]

/-- C2: in every state (so in every state reachable by `Put` and `Delete`), after
`Put(k, v1)` then `Put(k, v2)` the key sequence `Keys()` is the one there was after
`Put(k, v1)` alone, `Size()` is unchanged, and `Get(k)` returns `(v2, true)`. -/
theorem C2_overwrite_keeps_position (m : LinkedMap K V) (k : K) (v1 v2 : V) :
    ((m.Put k v1).Put k v2).Keys = (m.Put k v1).Keys ∧
    ((m.Put k v1).Put k v2).Size = (m.Put k v1).Size ∧
    ((m.Put k v1).Put k v2).Get k = some v2 := by
  have hkeys : ((m.Put k v1).Put k v2).keys = (m.Put k v1).keys :=
    LinkedMap.keys_put_present (m.Put k v1) k v2 (by rw [LinkedMap.get_put_same]; rfl)
  refine ⟨hkeys, ?_, LinkedMap.get_put_same _ _ _⟩
  unfold LinkedMap.Size
  rw [hkeys]

/-- C3: in a state reachable from `NewLinkedMap` by `Put` and `Delete`, after `Delete(k)` the
lookup `Get(k)` reports not found and `k` is not in `Keys()`; `Size()` is one less than before
when `k` was present; `Keys()`, `Size()` and every `Get` result are unchanged when `k` was
absent. -/
theorem C3_delete_consistency (m : LinkedMap K V) (k : K) (hm : ReachablePD m) :
    (m.Delete k).Get k = none ∧ k ∉ (m.Delete k).Keys ∧
    ((m.Get k).isSome = true → (m.Delete k).Size + 1 = m.Size) ∧
    (m.Get k = none →
      (m.Delete k).Keys = m.Keys ∧ (m.Delete k).Size = m.Size ∧
        ∀ other, (m.Delete k).Get other = m.Get other) := by
  have hinv := invariant_of_reachablePD m hm
  have hinv2 := invariant_delete m k hinv
  have hget := LinkedMap.get_delete_same m k
  refine ⟨hget, ?_, ?_, ?_⟩
  · intro hmem
    have := (hinv2.2.2 k).1 hmem
    rw [hget] at this
    simp at this
  · intro hpres
    have hmem : k ∈ m.keys := (hinv.2.2 k).2 hpres
    show (LinkedMap.removeKey m.keys k).length + 1 = m.keys.length
    rw [LinkedMap.removeKey_eq_erase, List.length_erase_of_mem hmem]
    have : 0 < m.keys.length := List.length_pos_of_mem hmem
    omega
  · intro habs
    have hnot : k ∉ m.keys := by
      intro hmem
      have := (hinv.2.2 k).1 hmem
      rw [habs] at this
      simp at this
    have hkeys : (m.Delete k).keys = m.keys := LinkedMap.removeKey_absent m.keys k hnot
    refine ⟨hkeys, ?_, ?_⟩
    · unfold LinkedMap.Size
      rw [hkeys]
    · intro other
      exact SyncMap.load_delete_absent m.values k other habs

/-- C4: in every state reachable from `NewLinkedMap` by `Put`, `Delete`, `Sort` and `SortKeys`
with a function that only permutes the slice, `Keys()` has no duplicates and holds a key
exactly when `Get` finds it; the store has one entry per key and `Size()` is the number of
its entries. This holds whichever values of `V` are the nil interface value. -/
theorem C4_keys_match_store (nilValue : V → Bool) (m : LinkedMap K V)
    (hm : Reachable nilValue m) :
    m.Keys.Nodup ∧ (∀ k, k ∈ m.Keys ↔ (m.Get k).isSome = true) ∧
    (m.values.map Prod.fst).Nodup ∧ m.Size = m.values.length := by
  obtain ⟨hk, hs, hiff⟩ := invariant_of_reachable nilValue m hm
  refine ⟨hk, hiff, hs, ?_⟩
  have hperm : m.keys.Perm (m.values.map Prod.fst) := by
    rw [List.perm_ext_iff_of_nodup hk hs]
    intro k
    rw [hiff k]
    exact SyncMap.load_isSome_iff m.values k
  have := hperm.length_eq
  simpa [LinkedMap.Size] using this

end

/-- The state `sampleMap` is reachable by `Put` and `Delete`. -/
theorem sampleMap_reachablePD : ReachablePD sampleMap :=
  ReachablePD.put _ _ _ (ReachablePD.delete _ _
    (ReachablePD.put _ _ _ (ReachablePD.put _ _ _ ReachablePD.new)))

/-- Witness of C3 at `sampleMap` and the key `"b"`. -/
theorem C3_delete_consistency_witness :
    ReachablePD sampleMap ∧ (sampleMap.Get "b").isSome = true ∧
    (sampleMap.Delete "b").Size + 1 = sampleMap.Size :=
  ⟨sampleMap_reachablePD, by decide,
    (C3_delete_consistency sampleMap "b" sampleMap_reachablePD).2.2.1 (by decide)⟩

/-- The state `sampleSorted` after `SortKeys` with a function that reverses the slice is
reachable. -/
theorem sampleSorted_reachable :
    Reachable notInterface (sampleSorted.SortKeys List.reverse) :=
  Reachable.sortKeys _ List.reverse (fun xs => List.reverse_perm xs)
    (Reachable.sort sampleMap _ (insertionSortRoutine _) byValueDesc
      (reachable_of_reachablePD notInterface _ sampleMap_reachablePD) (by decide))

/-- Witness of C4 at the state reached from `sampleMap` by `Sort` and `SortKeys`. -/
theorem C4_keys_match_store_witness :
    Reachable notInterface (sampleSorted.SortKeys List.reverse) ∧
    (sampleSorted.SortKeys List.reverse).Keys.Nodup ∧
    (sampleSorted.SortKeys List.reverse).Size = 2 :=
  ⟨sampleSorted_reachable,
    (C4_keys_match_store notInterface _ sampleSorted_reachable).1,
    (C4_keys_match_store notInterface _ sampleSorted_reachable).2.2.2⟩

/-! ## Lemmas on `CollectionMap` -/

section CollectionMapLemmas

variable {Key Value : Type} [DecidableEq Key]

theorem CollectionMap.drain_put_same (m : CollectionMap Key Value) (key : Key) (val : Value) :
    ((m.Put key val).Get key).1 = (m.Get key).1 ++ [val] := by
  unfold CollectionMap.Get CollectionMap.Put
  simp only [SyncMap.load_store_same]
  cases SyncMap.Load m.DataMap key with
  | none => simp [SafeList.PopBackAll, SafeList.PushFront, NewSafeList]
  | some list => simp [SafeList.PopBackAll, SafeList.PushFront]

theorem CollectionMap.drain_put_other (m : CollectionMap Key Value) (key other : Key)
    (val : Value) (hne : other ≠ key) :
    ((m.Put key val).Get other).1 = (m.Get other).1 := by
  unfold CollectionMap.Get CollectionMap.Put
  simp only [SyncMap.load_store_other _ _ _ _ hne]
  cases SyncMap.Load m.DataMap other <;> rfl

theorem CollectionMap.drain_twice_same (m : CollectionMap Key Value) (key : Key) :
    ((m.Get key).2.Get key).1 = [] := by
  unfold CollectionMap.Get
  cases h : SyncMap.Load m.DataMap key with
  | none => simp [h]
  | some list => simp [SyncMap.load_store_same, SafeList.PopBackAll]

theorem CollectionMap.drain_twice_other (m : CollectionMap Key Value) (key other : Key)
    (hne : other ≠ key) : ((m.Get key).2.Get other).1 = (m.Get other).1 := by
  unfold CollectionMap.Get
  cases h : SyncMap.Load m.DataMap key with
  | none => simp
  | some list =>
    simp only [SyncMap.load_store_other _ _ _ _ hne]
    cases SyncMap.Load m.DataMap other <;> rfl

theorem CollectionMap.drain_putValues (vals : List Value) (m : CollectionMap Key Value)
    (key : Key) : ((m.putValues key vals).Get key).1 = (m.Get key).1 ++ vals := by
  induction vals generalizing m with
  | nil => simp [CollectionMap.putValues]
  | cons v rest ih =>
    have hstep : m.putValues key (v :: rest) = (m.Put key v).putValues key rest := rfl
    rw [hstep, ih, CollectionMap.drain_put_same]
    simp

theorem runCalls_drained (calls : List (Call Key Value)) (m : CollectionMap Key Value)
    (key : Key) :
    drainedUnder key (runCalls m calls).1 ++ ((runCalls m calls).2.Get key).1
      = (m.Get key).1 ++ putsUnder key calls := by
  induction calls generalizing m with
  | nil => simp [runCalls, drainedUnder, putsUnder]
  | cons c rest ih =>
    cases c with
    | put k val =>
      simp only [runCalls, putsUnder]
      rw [ih]
      by_cases h : k = key
      · subst h
        simp [CollectionMap.drain_put_same]
      · have h2 : key ≠ k := fun h3 => h h3.symm
        simp [h, CollectionMap.drain_put_other _ _ _ _ h2]
    | get k =>
      simp only [runCalls, putsUnder, drainedUnder]
      by_cases h : k = key
      · subst h
        simp only [if_true, List.append_assoc]
        rw [ih, CollectionMap.drain_twice_same]
        simp
      · have h2 : key ≠ k := fun h3 => h h3.symm
        simp only [h, if_false]
        rw [ih, CollectionMap.drain_twice_other _ _ _ h2]

/-- C5: on a `CollectionMap` where `Get(k)` would return nothing (no value is pending under
`k`), after `Put(k, v1)`, ..., `Put(k, vn)` in that order `Get(k)` returns exactly
`[v1, ..., vn]`, and a `Get(k)` right after it returns the empty sequence. -/
theorem C5_drain_in_put_order (m : CollectionMap Key Value) (k : Key) (vals : List Value)
    (hnone : (m.Get k).1 = []) :
    ((m.putValues k vals).Get k).1 = vals ∧
    (((m.putValues k vals).Get k).2.Get k).1 = [] := by
  refine ⟨?_, CollectionMap.drain_twice_same _ _⟩
  rw [CollectionMap.drain_putValues, hnone]
  rfl

/-- C6: for every sequential history of `Put` and `Get` calls on a new `CollectionMap` and
every key `k`, the results of the `Get(k)` calls of the history, concatenated in call order
and followed by the result of one final `Get(k)`, are exactly the values put under `k`, in
put order: every value put is returned once, by the first `Get(k)` after its `Put`. -/
theorem C6_consume_once (calls : List (Call Key Value)) (k : Key) :
    drainedUnder k (runCalls (NewCollectionMap : CollectionMap Key Value) calls).1
        ++ ((runCalls (NewCollectionMap : CollectionMap Key Value) calls).2.Get k).1
      = putsUnder k calls := by
  rw [runCalls_drained]
  simp [CollectionMap.Get, NewCollectionMap, SyncMap.Load]

end CollectionMapLemmas

/-- Witness of C5 at the key `7` and the values `1, 2, 3`, on a map from which the values of
key `7` were drained before. -/
theorem C5_drain_in_put_order_witness :
    ((((NewCollectionMap : CollectionMap Nat Nat).Put 7 9).Get 7).2.Get 7).1 = [] ∧
    ((((((NewCollectionMap : CollectionMap Nat Nat).Put 7 9).Get 7).2).putValues 7
      [1, 2, 3]).Get 7).1 = [1, 2, 3] :=
  ⟨by decide,
    (C5_drain_in_put_order ((((NewCollectionMap : CollectionMap Nat Nat).Put 7 9).Get 7).2) 7
      [1, 2, 3] (by decide)).1⟩

/-! ## Lemmas on `MarshalJSON` -/

section MarshalLemmas

variable {K V E : Type} [DecidableEq K]

theorem encode_written {α : Type} (marshal : α → Except E (List Char)) (buf : List Char)
    (item : α) (h : succeeded (marshal item) = true) :
    Encode marshal buf item = Except.ok (buf ++ written (Encode marshal [] item)) := by
  unfold Encode
  cases hm : marshal item with
  | error err => rw [hm] at h; simp [succeeded] at h
  | ok bytes => simp [written]

theorem encode_error {α : Type} (marshal : α → Except E (List Char)) (buf : List Char)
    (item : α) (err : E) (h : marshal item = Except.error err) :
    Encode marshal buf item = Except.error err := by
  unfold Encode
  rw [h]

theorem succeeded_encode {α : Type} (marshal : α → Except E (List Char)) (buf : List Char)
    (item : α) : succeeded (Encode marshal buf item) = succeeded (marshal item) := by
  unfold Encode
  cases marshal item <;> rfl

theorem marshalLoop_eq (codec : JSONCodec K V E) (m : LinkedMap K V) (keys : List K) (i : Nat)
    (buf : List Char) :
    LinkedMap.marshalLoop codec m keys i buf =
      match firstError ((keys.map (fun k =>
          [codec.key m.escapeHTML k, codec.any m.escapeHTML (m.Get k)])).flatten) with
      | some err => Except.error err
      | none => Except.ok (buf ++ bodyFrom codec m i keys) := by
  induction keys generalizing i buf with
  | nil => simp [LinkedMap.marshalLoop, firstError, bodyFrom]
  | cons k rest ih =>
    simp only [LinkedMap.marshalLoop, List.map_cons, List.flatten_cons, List.cons_append,
      List.nil_append]
    cases hk : codec.key m.escapeHTML k with
    | error err =>
      rw [encode_error _ _ _ err hk]
      simp [firstError]
    | ok kb =>
      rw [encode_written _ _ _ (by rw [hk]; rfl)]
      cases hv : codec.any m.escapeHTML (m.Get k) with
      | error err =>
        simp only []
        rw [encode_error _ _ _ err hv]
        simp [firstError]
      | ok vb =>
        simp only []
        rw [encode_written _ _ _ (by rw [hv]; rfl)]
        simp only []
        rw [ih]
        simp only [firstError]
        cases firstError ((rest.map (fun k =>
          [codec.key m.escapeHTML k, codec.any m.escapeHTML (m.Get k)])).flatten) with
        | some err => rfl
        | none =>
          simp only [bodyFrom, pairBytes]
          split <;> simp

theorem bodyFrom_succ (codec : JSONCodec K V E) (m : LinkedMap K V) (keys : List K) (i : Nat) :
    bodyFrom codec m (i + 1) keys = (keys.map (fun k => ',' :: pairBytes codec m k)).flatten := by
  induction keys generalizing i with
  | nil => simp [bodyFrom]
  | cons k rest ih => simp [bodyFrom, ih]

theorem bodyFrom_zero (codec : JSONCodec K V E) (m : LinkedMap K V) (keys : List K) :
    bodyFrom codec m 0 keys = List.intercalate [','] (keys.map (pairBytes codec m)) := by
  cases keys with
  | nil => simp [bodyFrom, List.intercalate]
  | cons k rest =>
    simp only [bodyFrom, bodyFrom_succ, List.map_cons, List.intercalate]
    induction rest generalizing k with
    | nil => simp
    | cons k2 rest2 ih =>
      have := ih k2
      simp only [List.map_cons, List.intersperse, List.flatten_cons] at this ⊢
      simp_all

end MarshalLemmas

section MarshalClaims

variable {K V E : Type} [DecidableEq K]

theorem firstError_isSome_iff {α : Type} (rs : List (Except E α)) :
    (firstError rs).isSome = true ↔ ∃ r ∈ rs, succeeded r = false := by
  induction rs with
  | nil => simp [firstError]
  | cons r rest ih =>
    cases r with
    | error err => simp [firstError, succeeded]
    | ok a => simp [firstError, succeeded, ih]

theorem firstError_eq_none_iff {α : Type} (rs : List (Except E α)) :
    firstError rs = none ↔ ∀ r ∈ rs, succeeded r = true := by
  induction rs with
  | nil => simp [firstError]
  | cons r rest ih =>
    cases r with
    | error err => simp [firstError, succeeded]
    | ok a => simp [firstError, succeeded, ih]

theorem marshalJSON_eq (codec : JSONCodec K V E) (m : LinkedMap K V) :
    (m.MarshalJSON codec).1 =
      match firstError (encodeResults codec m) with
      | some err => { bytes := none, err := some err }
      | none => { bytes := some (['{'] ++ List.intercalate [',']
          (m.Keys.map (pairBytes codec m)) ++ ['}']), err := none } := by
  unfold LinkedMap.MarshalJSON
  rw [marshalLoop_eq, bodyFrom_zero]
  unfold encodeResults LinkedMap.Keys
  cases firstError ((m.keys.map (fun k =>
    [codec.key m.escapeHTML k, codec.any m.escapeHTML (m.Get k)])).flatten) <;> rfl

theorem any_succeeded (codec : JSONCodec K V E) (m : LinkedMap K V) (k : K)
    (hv : ∀ v, m.Get k = some v → succeeded (codec.value m.escapeHTML v) = true) :
    succeeded (codec.any m.escapeHTML (m.Get k)) = true := by
  cases hg : m.Get k with
  | none => rfl
  | some v => exact hv v hg

/-- C7 (amended): when the compact JSON encodings of all keys of `Keys()` and of the values
`Get` returns for them exist, the output of `MarshalJSON` is `{`, then the pairs
`<key>:<value>` separated by single commas, then `}`, with no trailing comma, where `<key>`
and `<value>` are the compact encoding of the item followed by one newline character each
(the line end `json.Encoder.Encode` writes after every item). -/
theorem C7_marshal_format (codec : JSONCodec K V E) (m : LinkedMap K V)
    (jk : K → List Char) (jv : Option V → List Char)
    (hk : ∀ k ∈ m.Keys, codec.key m.escapeHTML k = Except.ok (jk k))
    (hv : ∀ k ∈ m.Keys, codec.any m.escapeHTML (m.Get k) = Except.ok (jv (m.Get k))) :
    (m.MarshalJSON codec).1 =
      { bytes := some (['{'] ++ List.intercalate [',']
          (m.Keys.map (fun k => jk k ++ ['\n', ':'] ++ jv (m.Get k) ++ ['\n'])) ++ ['}']),
        err := none } := by
  have hnone : firstError (encodeResults codec m) = none := by
    rw [firstError_eq_none_iff]
    intro r hr
    simp only [encodeResults, List.mem_flatten, List.mem_map] at hr
    obtain ⟨l, ⟨k, hkm, rfl⟩, hrl⟩ := hr
    simp only [List.mem_cons, List.mem_singleton, List.not_mem_nil, or_false] at hrl
    rcases hrl with rfl | rfl
    · rw [hk k hkm]; rfl
    · rw [hv k hkm]; rfl
  rw [marshalJSON_eq, hnone]
  have hmap : m.Keys.map (pairBytes codec m)
      = m.Keys.map (fun k => jk k ++ ['\n', ':'] ++ jv (m.Get k) ++ ['\n']) := by
    apply List.map_congr_left
    intro k hkm
    simp [pairBytes, Encode, hk k hkm, hv k hkm, written]
  simp only [hmap]

/-- C8: when the encoder succeeds on every key of `Keys()` and on every value stored under
one, the output of `MarshalJSON` is `{`, then for the keys `k1..kn` of `Keys()`, in that
order, the bytes `E(ki)`, `:`, `E(vi)`, with one comma between two pairs, then `}`; `vi` is
what `Get(ki)` returns and `E` is what the encoder writes for one item. With no key the
output is `{}`. -/
theorem C8_marshal_in_key_order (codec : JSONCodec K V E) (m : LinkedMap K V)
    (hk : ∀ k ∈ m.Keys, succeeded (codec.key m.escapeHTML k) = true)
    (hv : ∀ k ∈ m.Keys, ∀ v, m.Get k = some v →
      succeeded (codec.value m.escapeHTML v) = true) :
    (m.MarshalJSON codec).1 =
      { bytes := some (['{'] ++ List.intercalate [','] (m.Keys.map (fun k =>
          written (Encode (codec.key m.escapeHTML) [] k) ++ [':']
            ++ written (Encode (codec.any m.escapeHTML) [] (m.Get k)))) ++ ['}']),
        err := none } ∧
    (m.Keys = [] → (m.MarshalJSON codec).1 = { bytes := some ['{', '}'], err := none }) := by
  have hnone : firstError (encodeResults codec m) = none := by
    rw [firstError_eq_none_iff]
    intro r hr
    simp only [encodeResults, List.mem_flatten, List.mem_map] at hr
    obtain ⟨l, ⟨k, hkm, rfl⟩, hrl⟩ := hr
    simp only [List.mem_cons, List.mem_singleton, List.not_mem_nil, or_false] at hrl
    rcases hrl with rfl | rfl
    · exact hk k hkm
    · exact any_succeeded codec m k (hv k hkm)
  have hmain := marshalJSON_eq codec m
  rw [hnone] at hmain
  refine ⟨hmain, ?_⟩
  intro hempty
  rw [hmain, hempty]
  rfl

/-- C10: `MarshalJSON` returns an error exactly when encoding fails for a key of `Keys()` or
for the value stored under one; the byte slice is nil exactly when there is an error; the
error is the encoder's error for the first failing item in key order (each key, then its
value); the receiver is unchanged. -/
theorem C10_marshal_all_or_nothing (codec : JSONCodec K V E) (m : LinkedMap K V) :
    ((m.MarshalJSON codec).1.err.isSome = true ↔
      ∃ k ∈ m.Keys, succeeded (codec.key m.escapeHTML k) = false ∨
        ∃ v, m.Get k = some v ∧ succeeded (codec.value m.escapeHTML v) = false) ∧
    (m.MarshalJSON codec).1.bytes.isSome = !(m.MarshalJSON codec).1.err.isSome ∧
    (m.MarshalJSON codec).1.err = firstError (encodeResults codec m) ∧
    (m.MarshalJSON codec).2 = m := by
  have herr : (m.MarshalJSON codec).1.err = firstError (encodeResults codec m) := by
    rw [marshalJSON_eq]
    cases firstError (encodeResults codec m) <;> rfl
  have hbytes : (m.MarshalJSON codec).1.bytes.isSome = !(m.MarshalJSON codec).1.err.isSome := by
    rw [marshalJSON_eq]
    cases firstError (encodeResults codec m) <;> rfl
  have hstate : (m.MarshalJSON codec).2 = m := by
    unfold LinkedMap.MarshalJSON
    cases LinkedMap.marshalLoop codec m m.keys 0 ['{'] <;> rfl
  refine ⟨?_, hbytes, herr, hstate⟩
  rw [herr, firstError_isSome_iff]
  constructor
  · rintro ⟨r, hr, hfail⟩
    simp only [encodeResults, List.mem_flatten, List.mem_map] at hr
    obtain ⟨l, ⟨k, hkm, rfl⟩, hrl⟩ := hr
    simp only [List.mem_cons, List.mem_singleton, List.not_mem_nil, or_false] at hrl
    refine ⟨k, hkm, ?_⟩
    rcases hrl with rfl | rfl
    · exact Or.inl hfail
    · right
      cases hg : m.Get k with
      | none => rw [hg] at hfail; simp [JSONCodec.any, succeeded] at hfail
      | some v => rw [hg] at hfail; exact ⟨v, rfl, hfail⟩
  · rintro ⟨k, hkm, hfail | ⟨v, hg, hfail⟩⟩
    · refine ⟨codec.key m.escapeHTML k, ?_, hfail⟩
      simp only [encodeResults, List.mem_flatten, List.mem_map]
      exact ⟨_, ⟨k, hkm, rfl⟩, by simp⟩
    · refine ⟨codec.any m.escapeHTML (m.Get k), ?_, by rw [hg]; exact hfail⟩
      simp only [encodeResults, List.mem_flatten, List.mem_map]
      exact ⟨_, ⟨k, hkm, rfl⟩, by simp⟩

end MarshalClaims

/-- C7, counterexample: on the map built by `Put("a",1)`, `Put("b",2)`, `Put("c",3)` the
output of `MarshalJSON` is not the bytes `{"a":1,"b":2,"c":3}`. -/
theorem C7_compact_output_counterexample :
    (abcMap.MarshalJSON stringIntCodec).1.bytes
      ≠ some "\x7b\"a\":1,\"b\":2,\"c\":3\x7d".toList := by
  decide

/-- Witness of C7 (amended) at the map built by `Put("a",1)`, `Put("b",2)`, `Put("c",3)`:
the output has a newline after every key and every value. -/
theorem C7_marshal_format_witness :
    (∀ k ∈ abcMap.Keys, stringIntCodec.key abcMap.escapeHTML k
      = Except.ok (jsonString true k)) ∧
    (∀ k ∈ abcMap.Keys, stringIntCodec.any abcMap.escapeHTML (abcMap.Get k)
      = Except.ok (jsonAnyInt (abcMap.Get k))) ∧
    (abcMap.MarshalJSON stringIntCodec).1 =
      { bytes := some "\x7b\"a\"\n:1\n,\"b\"\n:2\n,\"c\"\n:3\n\x7d".toList, err := none } :=
  have hk : ∀ k ∈ abcMap.Keys, stringIntCodec.key abcMap.escapeHTML k
      = Except.ok (jsonString true k) := fun _ _ => rfl
  have hv : ∀ k ∈ abcMap.Keys, stringIntCodec.any abcMap.escapeHTML (abcMap.Get k)
      = Except.ok (jsonAnyInt (abcMap.Get k)) := fun k _ => by
    cases abcMap.Get k <;> rfl
  ⟨hk, hv, (C7_marshal_format stringIntCodec abcMap (jsonString true) jsonAnyInt hk hv).trans
    (by decide)⟩

/-- Witness of C8 at the map built by `Put("a",1)`, `Put("b",2)`, `Put("c",3)`. -/
theorem C8_marshal_in_key_order_witness :
    (∀ k ∈ abcMap.Keys, succeeded (stringIntCodec.key abcMap.escapeHTML k) = true) ∧
    (∀ k ∈ abcMap.Keys, ∀ v, abcMap.Get k = some v →
      succeeded (stringIntCodec.value abcMap.escapeHTML v) = true) ∧
    (abcMap.MarshalJSON stringIntCodec).1 =
      { bytes := some (['{'] ++ List.intercalate [','] (abcMap.Keys.map (fun k =>
          written (Encode (stringIntCodec.key abcMap.escapeHTML) [] k) ++ [':']
            ++ written (Encode (stringIntCodec.any abcMap.escapeHTML) [] (abcMap.Get k))))
          ++ ['}']),
        err := none } ∧
    written (Encode (stringIntCodec.key abcMap.escapeHTML) [] "a") = ['"', 'a', '"', '\n'] :=
  ⟨fun _ _ => rfl, fun _ _ _ _ => rfl,
    (C8_marshal_in_key_order stringIntCodec abcMap (fun _ _ => rfl) (fun _ _ _ _ => rfl)).1,
    by decide⟩

section SortClaims

variable {K V : Type} [DecidableEq K]

/-- Where no stored value is the nil interface value, `Sort` does what is expected of it: in
a state reachable from `NewLinkedMap` by `Put` and `Delete`, and for a comparator that is a
strict weak order on pairs, `Sort` returns; afterwards the pairs met by walking `Keys()` and
fetching each value with `Get` are all found and sorted by the comparator (no pair is less
than one before it), `Keys()` is a permutation of the key sequence before the call, and
every `Get` result is unchanged. -/
theorem LinkedMap.sort_sorts_pairs_of_not_nil (nilValue : V → Bool)
    (routine : SortRoutine (Pair K V)) (m : LinkedMap K V)
    (lessFunc : Pair K V → Pair K V → Bool) (hm : ReachablePD m)
    (hnil : ∀ k v, m.Get k = some v → nilValue v = false)
    (hless : StrictWeakOrder lessFunc) :
    ∃ m2, m.Sort' nilValue routine lessFunc = some m2 ∧
      (∃ pairs, walkPairs m2 = pairs.map some ∧ SortedBy lessFunc pairs) ∧
      m2.Keys.Perm m.Keys ∧ ∀ k, m2.Get k = m.Get k := by
  have hinv := invariant_of_reachablePD m hm
  obtain ⟨pairs, hpairs⟩ := allFilled_pairs_exists m.values m.keys
    (fun k hk => (hinv.2.2 k).1 hk)
  obtain ⟨hkeys, hload⟩ := allFilled_pairs m.values m.keys pairs hpairs
  have hsort : m.Sort' nilValue routine lessFunc
      = some { m with keys := (routine.run lessFunc pairs).map Pair.key } := by
    unfold LinkedMap.Sort' LinkedMap.sortPairs
    rw [LinkedMap.sortSlots_of_not_nil nilValue m.values m.keys (fun k _ v hv => hnil k v hv)]
    simp only []
    rw [hpairs]
  refine ⟨_, hsort, ⟨routine.run lessFunc pairs, ?_, routine.sorted lessFunc pairs hless⟩,
    ?_, fun k => rfl⟩
  · show ((routine.run lessFunc pairs).map Pair.key).map
      (fun k => (SyncMap.Load m.values k).map (fun v => Pair.mk k v))
        = (routine.run lessFunc pairs).map some
    rw [List.map_map]
    apply List.map_congr_left
    intro p hp
    have hmem : p ∈ pairs := (routine.perm lessFunc pairs).mem_iff.1 hp
    simp only [Function.comp, hload p hmem, Option.map_some']
  · show ((routine.run lessFunc pairs).map Pair.key).Perm m.keys
    rw [← hkeys]
    exact (routine.perm lessFunc pairs).map Pair.key

end SortClaims

/-- The comparator `byValueDesc` is a strict weak order. -/
theorem byValueDesc_strictWeak : StrictWeakOrder byValueDesc := by
  refine ⟨?_, ?_, ?_⟩
  · intro a
    simp [byValueDesc]
  · intro a b c hab hbc
    simp only [byValueDesc, decide_eq_true_eq] at *
    omega
  · intro a b c h1 h2 h3 h4
    simp only [byValueDesc, decide_eq_false_iff_not, not_lt] at *
    constructor <;> omega

/-- The lemma `LinkedMap.sort_sorts_pairs_of_not_nil` at `sampleMap`, whose values are of
type `int`, sorted by value, descending, with insertion sort. -/
theorem sampleMap_sort_sorts_pairs :
    ∃ m2, sampleMap.Sort' notInterface (insertionSortRoutine _) byValueDesc = some m2 ∧
      (∃ pairs, walkPairs m2 = pairs.map some ∧ SortedBy byValueDesc pairs) ∧
      m2.Keys.Perm sampleMap.Keys ∧ ∀ k, m2.Get k = sampleMap.Get k :=
  LinkedMap.sort_sorts_pairs_of_not_nil notInterface (insertionSortRoutine _) sampleMap
    byValueDesc sampleMap_reachablePD (fun _ _ _ => rfl) byValueDesc_strictWeak

/-! ## `Range`, absent keys, `Delete` and key isolation in `CollectionMap` -/

section RangeCalls

variable {K V : Type}

theorem LinkedMap.rangeCalls_all (nilKey : K → Bool) (nilValue : V → Bool)
    (s : SyncMap K V) (fn : K → V → Bool) (hfn : ∀ k v, fn k v = true)
    (hnil : ∀ e ∈ s, nilKey e.1 = false ∧ nilValue e.2 = false) :
    LinkedMap.rangeCalls nilKey nilValue s fn = some s := by
  induction s with
  | nil => rfl
  | cons e rest ih =>
    obtain ⟨k, v⟩ := e
    have hkv := hnil (k, v) (List.mem_cons_self _ _)
    have ih2 := ih (fun e he => hnil e (List.mem_cons_of_mem _ he))
    simp [LinkedMap.rangeCalls, assertType_of_not_nil nilKey k hkv.1,
      assertType_of_not_nil nilValue v hkv.2, hfn, ih2]

theorem CollectionMap.range_keys (m : CollectionMap K V) :
    m.Range.1.map Prod.fst = m.DataMap.map Prod.fst := by
  simp [CollectionMap.Range, List.map_map, Function.comp]

end RangeCalls

section RangeLemmas

variable {K V : Type} [DecidableEq K]

theorem SyncMap.load_of_mem (s : SyncMap K V) (key : K) (value : V)
    (hnd : (s.map Prod.fst).Nodup) (hmem : (key, value) ∈ s) :
    SyncMap.Load s key = some value := by
  induction s with
  | nil => simp at hmem
  | cons e rest ih =>
    obtain ⟨k, v⟩ := e
    simp only [List.map_cons, List.nodup_cons] at hnd
    rcases List.mem_cons.1 hmem with h | h
    · cases h
      simp [SyncMap.Load]
    · have hk : k ≠ key := by
        intro hkk
        subst hkk
        exact hnd.1 (List.mem_map_of_mem Prod.fst h)
      simp [SyncMap.Load, hk, ih hnd.2 h]

theorem SyncMap.mem_of_load (s : SyncMap K V) (key : K) (value : V)
    (h : SyncMap.Load s key = some value) : (key, value) ∈ s := by
  induction s with
  | nil => simp [SyncMap.Load] at h
  | cons e rest ih =>
    obtain ⟨k, v⟩ := e
    by_cases hk : k = key
    · subst hk
      simp [SyncMap.Load] at h
      simp [h]
    · simp [SyncMap.Load, hk] at h
      exact List.mem_cons_of_mem _ (ih h)

theorem SyncMap.load_map_values {W : Type} (s : SyncMap K V) (f : V → W) (key : K) :
    SyncMap.Load (s.map (fun e => (e.1, f e.2))) key = (SyncMap.Load s key).map f := by
  induction s with
  | nil => simp [SyncMap.Load]
  | cons e rest ih =>
    obtain ⟨k, v⟩ := e
    by_cases hk : k = key
    · simp [SyncMap.Load, hk]
    · simp [SyncMap.Load, hk, ih]

theorem SyncMap.mem_store (s : SyncMap K V) (key : K) (value : V) :
    (key, value) ∈ SyncMap.Store s key value := by
  induction s with
  | nil => simp [SyncMap.Store]
  | cons e rest ih =>
    obtain ⟨k, v⟩ := e
    by_cases hk : k = key
    · simp [SyncMap.Store, hk]
    · simp only [SyncMap.Store, hk, if_false]
      exact List.mem_cons_of_mem _ ih

theorem CollectionMap.drain_absent (m : CollectionMap K V) (key : K)
    (h : SyncMap.Load m.DataMap key = none) : m.Get key = ([], m) := by
  unfold CollectionMap.Get
  rw [h]

end RangeLemmas

section CollectionClaims

variable {Key Value : Type} [DecidableEq Key]

/-- C11: on a `CollectionMap` whose store holds one entry per key (as every `sync.Map`
does), `Range(fn)` calls `fn` exactly once for each key of the map, keys with an empty queue
included, and for no other key; the values passed with a key are what `Get` of that key would
have returned; after `Range`, `Get(k)` returns the empty sequence for every key `k`. -/
theorem C11_range_drains_every_key (m : CollectionMap Key Value)
    (hwf : (m.DataMap.map Prod.fst).Nodup) :
    (m.Range.1.map Prod.fst).Nodup ∧
    (∀ k, k ∈ m.Range.1.map Prod.fst ↔ (SyncMap.Load m.DataMap k).isSome = true) ∧
    (∀ call ∈ m.Range.1, call.2 = (m.Get call.1).1) ∧
    (∀ k, (m.Range.2.Get k).1 = []) := by
  refine ⟨?_, ?_, ?_, ?_⟩
  · rw [CollectionMap.range_keys]
    exact hwf
  · intro k
    rw [CollectionMap.range_keys, SyncMap.load_isSome_iff]
  · intro call hcall
    simp only [CollectionMap.Range, List.mem_map] at hcall
    obtain ⟨e, he, rfl⟩ := hcall
    have hload : SyncMap.Load m.DataMap e.1 = some e.2 :=
      SyncMap.load_of_mem m.DataMap e.1 e.2 hwf he
    simp [CollectionMap.Get, hload]
  · intro k
    have hload := SyncMap.load_map_values m.DataMap (fun l => (SafeList.PopBackAll l).2) k
    simp only [CollectionMap.Range, CollectionMap.Get]
    rw [hload]
    cases SyncMap.Load m.DataMap k with
    | none => rfl
    | some list => simp [SafeList.PopBackAll]

/-- C12: when the map has no queue for `k`, `Get(k)` returns the empty sequence and leaves
the map as it was: no queue is made for `k` and no other queue is touched. -/
theorem C12_get_absent_key (m : CollectionMap Key Value) (k : Key)
    (habs : SyncMap.Load m.DataMap k = none) :
    (m.Get k).1 = [] ∧ (m.Get k).1.length = 0 ∧ (m.Get k).2 = m := by
  rw [CollectionMap.drain_absent m k habs]
  exact ⟨rfl, rfl, rfl⟩

/-- C13: for a key `k` with a queue in a map whose store holds one entry per key, after
`Get(k)` the key is still in the map with an empty queue, and a following `Range` calls `fn`
for `k`, with the empty sequence only; after `Delete(k)` the key is no longer in the map and
a following `Range` does not call `fn` for `k`. -/
theorem C13_drain_keeps_key_delete_removes (m : CollectionMap Key Value) (k : Key)
    (list : SafeList Value) (hwf : (m.DataMap.map Prod.fst).Nodup)
    (hk : SyncMap.Load m.DataMap k = some list) :
    SyncMap.Load (m.Get k).2.DataMap k = some NewSafeList ∧
    (k, []) ∈ (m.Get k).2.Range.1 ∧
    (∀ call ∈ (m.Get k).2.Range.1, call.1 = k → call.2 = []) ∧
    SyncMap.Load (m.Delete k).DataMap k = none ∧
    k ∉ (m.Delete k).Range.1.map Prod.fst := by
  have hget : (m.Get k).2 = { DataMap := SyncMap.Store m.DataMap k NewSafeList } := by
    simp [CollectionMap.Get, hk, SafeList.PopBackAll, NewSafeList]
  have hwf2 : (((m.Get k).2).DataMap.map Prod.fst).Nodup := by
    rw [hget]
    exact SyncMap.nodup_store _ _ _ hwf
  have hload : SyncMap.Load (m.Get k).2.DataMap k = some NewSafeList := by
    rw [hget]
    exact SyncMap.load_store_same _ _ _
  refine ⟨hload, ?_, ?_, SyncMap.load_delete_same _ _, ?_⟩
  · simp only [CollectionMap.Range, List.mem_map]
    exact ⟨(k, NewSafeList), SyncMap.mem_of_load _ _ _ hload, rfl⟩
  · intro call hcall hkey
    simp only [CollectionMap.Range, List.mem_map] at hcall
    obtain ⟨e, he, rfl⟩ := hcall
    have h1 := SyncMap.load_of_mem _ e.1 e.2 hwf2 he
    simp only at hkey
    rw [hkey, hload] at h1
    have h2 : e.2 = NewSafeList := (Option.some.inj h1).symm
    simp [h2, SafeList.PopBackAll, NewSafeList]
  · rw [CollectionMap.range_keys]
    show k ∉ (SyncMap.Delete m.DataMap k).map Prod.fst
    rw [SyncMap.keys_delete]
    simp

/-- C14: `Delete` discards what is pending: after `Put(k, a1..am)`, `Delete(k)`,
`Put(k, b1..bn)` (each group in order), `Get(k)` returns exactly `[b1, ..., bn]`, so none of
the values put before the `Delete`, and the empty sequence when `n = 0`. -/
theorem C14_delete_discards_pending (m : CollectionMap Key Value) (k : Key)
    (before after : List Value) :
    ((((m.putValues k before).Delete k).putValues k after).Get k).1 = after := by
  rw [CollectionMap.drain_putValues]
  have habs : SyncMap.Load ((m.putValues k before).Delete k).DataMap k = none :=
    SyncMap.load_delete_same _ _
  rw [CollectionMap.drain_absent _ k habs]
  rfl

/-- C20: for keys `k` and `other` with `other` different from `k`, none of `Put(k, v)`,
`Get(k)` and `Delete(k)` changes the queue of `other`: the entry of `other` in the store is
the same before and after (present or not, with the same pending values), and so is what
`Get(other)` returns. -/
theorem C20_key_isolation (m : CollectionMap Key Value) (k other : Key) (v : Value)
    (hne : other ≠ k) :
    (SyncMap.Load (m.Put k v).DataMap other = SyncMap.Load m.DataMap other ∧
      ((m.Put k v).Get other).1 = (m.Get other).1) ∧
    (SyncMap.Load (m.Get k).2.DataMap other = SyncMap.Load m.DataMap other ∧
      ((m.Get k).2.Get other).1 = (m.Get other).1) ∧
    (SyncMap.Load (m.Delete k).DataMap other = SyncMap.Load m.DataMap other ∧
      ((m.Delete k).Get other).1 = (m.Get other).1) := by
  have hdel : SyncMap.Load (m.Delete k).DataMap other = SyncMap.Load m.DataMap other :=
    SyncMap.load_delete_other _ _ _ hne
  refine ⟨⟨SyncMap.load_store_other _ _ _ _ hne, CollectionMap.drain_put_other _ _ _ _ hne⟩,
    ⟨?_, CollectionMap.drain_twice_other _ _ _ hne⟩, ⟨hdel, ?_⟩⟩
  · unfold CollectionMap.Get
    cases SyncMap.Load m.DataMap k with
    | none => rfl
    | some list => exact SyncMap.load_store_other _ _ _ _ hne
  · unfold CollectionMap.Get
    rw [hdel]
    cases SyncMap.Load m.DataMap other <;> rfl

end CollectionClaims

/-- Witness of C11 at `sampleQueues`: `fn` is called for `"a"` with `[1, 3]` and for `"b"`
with `[2]`. -/
theorem C11_range_drains_every_key_witness :
    (sampleQueues.DataMap.map Prod.fst).Nodup ∧
    sampleQueues.Range.1 = [("a", [1, 3]), ("b", [2])] ∧
    (sampleQueues.Range.1.map Prod.fst).Nodup ∧
    (∀ k, (sampleQueues.Range.2.Get k).1 = []) :=
  ⟨by decide, by decide, (C11_range_drains_every_key sampleQueues (by decide)).1,
    (C11_range_drains_every_key sampleQueues (by decide)).2.2.2⟩

/-- Witness of C12 at the key `"a"`, deleted from `sampleQueues` since its last `Put`. -/
theorem C12_get_absent_key_witness :
    SyncMap.Load (sampleQueues.Delete "a").DataMap "a" = none ∧
    ((sampleQueues.Delete "a").Get "a").1 = [] ∧
    ((sampleQueues.Delete "a").Get "a").2 = sampleQueues.Delete "a" :=
  ⟨by decide, (C12_get_absent_key (sampleQueues.Delete "a") "a" (by decide)).1,
    (C12_get_absent_key (sampleQueues.Delete "a") "a" (by decide)).2.2⟩

/-- Witness of C13 at `sampleQueues` and the key `"a"`. -/
theorem C13_drain_keeps_key_delete_removes_witness :
    (sampleQueues.DataMap.map Prod.fst).Nodup ∧
    SyncMap.Load sampleQueues.DataMap "a" = some { elems := [3, 1] } ∧
    ("a", []) ∈ (sampleQueues.Get "a").2.Range.1 ∧
    "a" ∉ (sampleQueues.Delete "a").Range.1.map Prod.fst :=
  ⟨by decide, by decide,
    (C13_drain_keeps_key_delete_removes sampleQueues "a" { elems := [3, 1] } (by decide)
      (by decide)).2.1,
    (C13_drain_keeps_key_delete_removes sampleQueues "a" { elems := [3, 1] } (by decide)
      (by decide)).2.2.2.2⟩

/-- Witness of C20 at `sampleQueues`, the key `"a"` and the other key `"b"`. -/
theorem C20_key_isolation_witness :
    "b" ≠ "a" ∧ ((sampleQueues.Put "a" 9).Get "b").1 = [2] ∧
    ((sampleQueues.Get "a").2.Get "b").1 = [2] ∧ ((sampleQueues.Delete "a").Get "b").1 = [2] :=
  ⟨by decide,
    (C20_key_isolation sampleQueues "a" "b" 9 (by decide)).1.2.trans (by decide),
    (C20_key_isolation sampleQueues "a" "b" 9 (by decide)).2.1.2.trans (by decide),
    (C20_key_isolation sampleQueues "a" "b" 9 (by decide)).2.2.2.trans (by decide)⟩

section LinkedMapClaims

variable {K V : Type} [DecidableEq K]

theorem LinkedMap.put_eq_steps (m : LinkedMap K V) (key : K) (value : V) :
    m.Put key value = (m.putAppend key).putStore key value := by
  unfold LinkedMap.Put LinkedMap.putAppend LinkedMap.putStore
  cases SyncMap.Load m.values key <;> rfl

/-- C15 (amended): `Put` runs the append to the key list before the `Store`. For a key new
to a reachable state, in the state between the two statements the key is in `Keys()` while
`Get` on it reports not found, and every other key of `Keys()` is present in the store; once
the `Store` is done (the state `Put` returns) every key of `Keys()` is present in the
store. -/
theorem C15_put_appends_before_store (nilValue : V → Bool) (m : LinkedMap K V) (key : K)
    (value : V) (hm : Reachable nilValue m) (hnew : m.Get key = none) :
    m.putObservable key value = [m, m.putAppend key, m.Put key value] ∧
    key ∈ (m.putAppend key).Keys ∧ (m.putAppend key).Get key = none ∧
    (∀ k ∈ (m.putAppend key).Keys, k ≠ key → ((m.putAppend key).Get k).isSome = true) ∧
    (∀ k ∈ (m.Put key value).Keys, ((m.Put key value).Get k).isSome = true) := by
  have hinv := invariant_of_reachable nilValue m hm
  have hload : SyncMap.Load m.values key = none := hnew
  have happ : m.putAppend key = { m with keys := m.keys ++ [key] } := by
    unfold LinkedMap.putAppend
    rw [hload]
  refine ⟨?_, ?_, ?_, ?_, ?_⟩
  · unfold LinkedMap.putObservable
    rw [← LinkedMap.put_eq_steps]
  · rw [happ]
    simp [LinkedMap.Keys]
  · rw [happ]
    exact hnew
  · intro k hk hne
    rw [happ] at hk ⊢
    have hmem : k ∈ m.keys := by
      simpa [LinkedMap.Keys, hne] using hk
    exact (hinv.2.2 k).1 hmem
  · intro k hk
    exact ((invariant_put m key value hinv).2.2 k).1 hk

/-- Where no stored key or value is the nil interface value, `Range` does what is expected
of it: on a state whose store holds one entry per key (as every `sync.Map` does) and for a
callback that returns true on every call, `Range(fn)` returns and has called `fn` once for
each live entry of the store and for nothing else: every `(key, value)` passed satisfies
`Get(key) = (value, true)`, every key that `Get` finds is passed exactly once, no key is
passed twice, and the receiver is unchanged. -/
theorem LinkedMap.range_visits_of_not_nil (nilKey : K → Bool) (nilValue : V → Bool)
    (m : LinkedMap K V) (fn : K → V → Bool)
    (hfn : ∀ k v, fn k v = true) (hwf : (m.values.map Prod.fst).Nodup)
    (hnil : ∀ e ∈ m.values, nilKey e.1 = false ∧ nilValue e.2 = false) :
    ∃ calls, m.Range nilKey nilValue fn = some (calls, m) ∧
      (∀ call ∈ calls, m.Get call.1 = some call.2) ∧
      (∀ k, (m.Get k).isSome = true → (calls.map Prod.fst).count k = 1) ∧
      (calls.map Prod.fst).Nodup := by
  refine ⟨m.values, ?_, ?_, ?_, hwf⟩
  · unfold LinkedMap.Range
    rw [LinkedMap.rangeCalls_all nilKey nilValue m.values fn hfn hnil]
    rfl
  · intro call hcall
    exact SyncMap.load_of_mem m.values call.1 call.2 hwf hcall
  · intro k hk
    exact List.count_eq_one_of_mem hwf ((SyncMap.load_isSome_iff m.values k).1 hk)

/-- C18: in a state reachable from `NewLinkedMap` by `Put` and `Delete` and for a key `k` of
`Keys()`, the key occurs once in `Keys()`, and `Keys()` after `Delete(k)` is `Keys()` before
the call with that occurrence erased, that is, the other keys in their order; `Get` of every
other key is unchanged. -/
theorem C18_delete_keeps_order (m : LinkedMap K V) (k : K) (hm : ReachablePD m)
    (hk : k ∈ m.Keys) :
    m.Keys.count k = 1 ∧
    (m.Delete k).Keys = m.Keys.erase k ∧
    (m.Delete k).Keys = m.Keys.filter (fun x => decide (x ≠ k)) ∧
    (∀ other, other ≠ k → (m.Delete k).Get other = m.Get other) := by
  have hinv := invariant_of_reachablePD m hm
  have herase : (m.Delete k).Keys = m.Keys.erase k := LinkedMap.removeKey_eq_erase _ _
  refine ⟨List.count_eq_one_of_mem hinv.1 hk, herase, ?_,
    fun other hne => LinkedMap.get_delete_other m k other hne⟩
  rw [herase]
  have := List.Nodup.erase_eq_filter hinv.1 k
  simpa [LinkedMap.Keys] using this

/-- In every state reachable from `NewLinkedMap` by `Put`, `Delete` and `Sort` (and by
`SortKeys` with a permuting function), the lookup of every key of the key list in the first
loop of `Sort` succeeds. -/
theorem LinkedMap.sort_lookups_succeed (nilValue : V → Bool) (m : LinkedMap K V)
    (hm : Reachable nilValue m) :
    ∀ key ∈ m.Keys, (SyncMap.Load m.values key).isSome = true := by
  have hinv := invariant_of_reachable nilValue m hm
  intro key hkey
  exact (hinv.2.2 key).1 hkey

/-- Where no stored value is the nil interface value, `Sort` cannot fail on a reachable
state: every slot of the `pairs` array is filled, the array has `Size()` slots, and `Sort`
returns for every comparator and sort routine. -/
theorem LinkedMap.sort_returns_of_not_nil (nilValue : V → Bool) (m : LinkedMap K V)
    (hm : Reachable nilValue m) (hnil : ∀ k v, m.Get k = some v → nilValue v = false) :
    (∃ slots, m.sortPairs nilValue = some slots ∧ (∀ slot ∈ slots, slot.isSome = true) ∧
      slots.length = m.Size) ∧
    (∀ (routine : SortRoutine (Pair K V)) (lessFunc : Pair K V → Pair K V → Bool),
      (m.Sort' nilValue routine lessFunc).isSome = true) := by
  have hinv := invariant_of_reachable nilValue m hm
  have hslots := LinkedMap.sortSlots_of_not_nil nilValue m.values m.keys
    (fun k _ v hv => hnil k v hv)
  refine ⟨⟨_, hslots, ?_, by simp [LinkedMap.Size]⟩, ?_⟩
  · intro slot hslot
    simp only [List.mem_map] at hslot
    obtain ⟨key, hkey, rfl⟩ := hslot
    have := (hinv.2.2 key).1 hkey
    simpa [LinkedMap.Get] using this
  · intro routine lessFunc
    obtain ⟨pairs, hpairs⟩ := allFilled_pairs_exists m.values m.keys
      (fun k hk => (hinv.2.2 k).1 hk)
    unfold LinkedMap.Sort' LinkedMap.sortPairs
    rw [hslots]
    simp only []
    rw [hpairs]
    rfl

end LinkedMapClaims

/-- C15, counterexample: during `Put("a", 1)` on a new map, the state between the two
statements of `Put` has `"a"` in `Keys()` while `Get("a")` reports not found. -/
theorem C15_key_visible_before_value_counterexample :
    (NewLinkedMap : LinkedMap String Int).putAppend "a"
      ∈ (NewLinkedMap : LinkedMap String Int).putObservable "a" 1 ∧
    "a" ∈ ((NewLinkedMap : LinkedMap String Int).putAppend "a").Keys ∧
    ((NewLinkedMap : LinkedMap String Int).putAppend "a").Get "a" = none := by
  decide

/-- Witness of C15 (amended) at `sampleMap` and the new key `"z"`. -/
theorem C15_put_appends_before_store_witness :
    Reachable notInterface sampleMap ∧ sampleMap.Get "z" = none ∧
    (sampleMap.putAppend "z").Keys = ["b", "c", "z"] ∧
    (sampleMap.putAppend "z").Get "z" = none ∧
    (∀ k ∈ (sampleMap.Put "z" 0).Keys, ((sampleMap.Put "z" 0).Get k).isSome = true) :=
  ⟨reachable_of_reachablePD notInterface _ sampleMap_reachablePD, by decide, by decide,
    (C15_put_appends_before_store notInterface sampleMap "z" 0
      (reachable_of_reachablePD notInterface _ sampleMap_reachablePD) (by decide)).2.2.1,
    (C15_put_appends_before_store notInterface sampleMap "z" 0
      (reachable_of_reachablePD notInterface _ sampleMap_reachablePD) (by decide)).2.2.2.2⟩

/-- C16, the defect at work: two calls `Put("k", 1)` and `Put("k", 2)` run concurrently on a
new map and both run `Load` before either runs `Store`. Each makes its own list, the second
`Store` replaces the first, and the two `Get("k")` calls that run after both `Put` calls
return `[2]` and the empty sequence: the value `1` is in no drain. With the two `Put` calls
one after the other the drains are `[1, 2]` and the empty sequence. -/
theorem C16_racing_puts_lose_a_value :
    (Shared.run (Shared.start racingPuts) [0, 1, 0, 0, 1, 1, 2, 2, 3, 3]).tasks
      = [Task.finished, Task.finished, Task.finished, Task.finished] ∧
    (Shared.run (Shared.start racingPuts) [0, 1, 0, 0, 1, 1, 2, 2, 3, 3]).results
      = [("k", [2]), ("k", [])] ∧
    (Shared.run (Shared.start racingPuts) [0, 0, 0, 1, 1, 1, 2, 2, 3, 3]).results
      = [("k", [1, 2]), ("k", [])] := by
  decide

/-- The steps of the calls of `racingPuts` run one call after the other give what the
sequential model gives. -/
theorem racingPuts_in_sequence :
    (Shared.run (Shared.start racingPuts) [0, 0, 0, 1, 1, 1, 2, 2, 3, 3]).results
      = (runCalls (NewCollectionMap : CollectionMap String Nat)
          [Call.put "k" 1, Call.put "k" 2, Call.get "k", Call.get "k"]).1 ∧
    (Shared.run (Shared.start racingPuts) [0, 0, 0, 1, 1, 1, 2, 2, 3, 3]).view
      = (runCalls (NewCollectionMap : CollectionMap String Nat)
          [Call.put "k" 1, Call.put "k" 2, Call.get "k", Call.get "k"]).2 := by
  decide

/-- The state `nilValueMap` is reachable by `Put` and `Delete`. -/
theorem nilValueMap_reachablePD : ReachablePD nilValueMap :=
  ReachablePD.put _ _ _ ReachablePD.new

/-- The comparator `neverLess` is a strict weak order. -/
theorem neverLess_strictWeak : StrictWeakOrder neverLess :=
  ⟨fun _ => rfl, fun _ _ _ h _ => h, fun _ _ _ _ _ _ _ => ⟨rfl, rfl⟩⟩

/-- C9, the defect at work: on the `LinkedMap[string, any]` reached from a new map by
`Put("a", nil)`, where `Get("a")` returns `(nil, true)`, and with a comparator that is a
strict weak order, `Sort` panics at its type assertion `val.(V)`, whatever the sort routine:
it sorts nothing and returns no state. -/
theorem C9_sort_panics_on_nil_value :
    ReachablePD nilValueMap ∧ StrictWeakOrder neverLess ∧
    nilValueMap.Get "a" = some AnyValue.nil ∧
    ∀ routine : SortRoutine (Pair String AnyValue),
      nilValueMap.Sort' AnyValue.isNil routine neverLess = none :=
  ⟨nilValueMap_reachablePD, neverLess_strictWeak, by decide, fun _ => rfl⟩

/-- C17, the defect at work: on the `LinkedMap[string, any]` reached from a new map by
`Put("a", nil)`, whose store holds the one live entry `("a", nil)`, `Range` with a callback
that always returns true panics at its type assertion `v.(Value)` before it calls `fn`: the
live entry is not passed. -/
theorem C17_range_panics_on_nil_value :
    nilValueMap.values = [("a", AnyValue.nil)] ∧
    nilValueMap.Get "a" = some AnyValue.nil ∧
    nilValueMap.Range notInterface AnyValue.isNil (fun _ _ => true) = none := by
  decide

/-- C19, the defect at work: on the `LinkedMap[string, any]` reached from a new map by
`Put("a", nil)`, a reachable state, the lookup of the one key of the key list succeeds, yet
the type assertion `val.(V)` panics before the slot of `pairs` is filled: the first loop of
`Sort` does not complete and `Sort` fails for every comparator and sort routine. -/
theorem C19_sort_fails_on_nil_value :
    Reachable AnyValue.isNil nilValueMap ∧
    nilValueMap.Size = 1 ∧
    (∀ key ∈ nilValueMap.Keys, (SyncMap.Load nilValueMap.values key).isSome = true) ∧
    nilValueMap.sortPairs AnyValue.isNil = none ∧
    ∀ (routine : SortRoutine (Pair String AnyValue))
      (lessFunc : Pair String AnyValue → Pair String AnyValue → Bool),
      nilValueMap.Sort' AnyValue.isNil routine lessFunc = none :=
  ⟨Reachable.put _ _ _ Reachable.new, by decide, by decide, by decide, fun _ _ => rfl⟩

/-- The lemma `LinkedMap.range_visits_of_not_nil` at `abcMap`, whose keys are of type
`string` and values of type `int`, and the callback that always continues. -/
theorem abcMap_range_visits_live_entries :
    abcMap.Range notInterface notInterface (fun _ _ => true)
      = some ([("a", 1), ("b", 2), ("c", 3)], abcMap) ∧
    ∃ calls, abcMap.Range notInterface notInterface (fun _ _ => true) = some (calls, abcMap) ∧
      (∀ call ∈ calls, abcMap.Get call.1 = some call.2) ∧
      (∀ k, (abcMap.Get k).isSome = true → (calls.map Prod.fst).count k = 1) ∧
      (calls.map Prod.fst).Nodup :=
  ⟨by decide,
    LinkedMap.range_visits_of_not_nil notInterface notInterface abcMap (fun _ _ => true)
      (fun _ _ => rfl) (by decide) (fun _ _ => ⟨rfl, rfl⟩)⟩

/-- Witness of C18 at `abcMap` and the key `"b"`. -/
theorem C18_delete_keeps_order_witness :
    ReachablePD abcMap ∧ "b" ∈ abcMap.Keys ∧ (abcMap.Delete "b").Keys = ["a", "c"] ∧
    (∀ other, other ≠ "b" → (abcMap.Delete "b").Get other = abcMap.Get other) :=
  have hreach : ReachablePD abcMap :=
    ReachablePD.put _ _ _ (ReachablePD.put _ _ _ (ReachablePD.put _ _ _ ReachablePD.new))
  ⟨hreach, by decide,
    (C18_delete_keeps_order abcMap "b" hreach (by decide)).2.1.trans (by decide),
    (C18_delete_keeps_order abcMap "b" hreach (by decide)).2.2.2⟩

/-- The lemma `LinkedMap.sort_returns_of_not_nil` at the state reached from `sampleMap` by
`Sort` and `SortKeys`, whose values are of type `int`. -/
theorem sampleSorted_sort_returns :
    ((sampleSorted.SortKeys List.reverse).Sort' notInterface (insertionSortRoutine _)
      byValueDesc).isSome = true :=
  (LinkedMap.sort_returns_of_not_nil notInterface _ sampleSorted_reachable
    (fun _ _ _ => rfl)).2 (insertionSortRoutine _) byValueDesc

/-! ## One entry per key: the condition on the store is kept by every operation -/

section StoreWellFormed

variable {Key Value : Type} [DecidableEq Key]

theorem CollectionMap.oneEntryPerKey_new (key : Key) :
    SyncMap.Load (NewCollectionMap : CollectionMap Key Value).DataMap key = none ∧
    ((NewCollectionMap : CollectionMap Key Value).DataMap.map Prod.fst).Nodup := by
  simp [NewCollectionMap, SyncMap.Load]

theorem CollectionMap.oneEntryPerKey_put (m : CollectionMap Key Value) (key : Key)
    (val : Value) (h : (m.DataMap.map Prod.fst).Nodup) :
    ((m.Put key val).DataMap.map Prod.fst).Nodup :=
  SyncMap.nodup_store _ _ _ h

theorem CollectionMap.oneEntryPerKey_get (m : CollectionMap Key Value) (key : Key)
    (h : (m.DataMap.map Prod.fst).Nodup) : ((m.Get key).2.DataMap.map Prod.fst).Nodup := by
  unfold CollectionMap.Get
  cases SyncMap.Load m.DataMap key with
  | none => exact h
  | some list => exact SyncMap.nodup_store _ _ _ h

theorem CollectionMap.oneEntryPerKey_delete (m : CollectionMap Key Value) (key : Key)
    (h : (m.DataMap.map Prod.fst).Nodup) : ((m.Delete key).DataMap.map Prod.fst).Nodup :=
  SyncMap.nodup_delete _ _ h

theorem CollectionMap.oneEntryPerKey_range (m : CollectionMap Key Value) (key : Key)
    (h : (m.DataMap.map Prod.fst).Nodup) :
    (m.Range.2.DataMap.map Prod.fst).Nodup ∧
    (SyncMap.Load m.Range.2.DataMap key).isSome = (SyncMap.Load m.DataMap key).isSome := by
  have hkeys : m.Range.2.DataMap.map Prod.fst = m.DataMap.map Prod.fst := by
    simp [CollectionMap.Range, List.map_map, Function.comp]
  refine ⟨by rw [hkeys]; exact h, ?_⟩
  have hload := SyncMap.load_map_values m.DataMap (fun l => (SafeList.PopBackAll l).2) key
  simp only [CollectionMap.Range]
  rw [hload]
  cases SyncMap.Load m.DataMap key <;> rfl

end StoreWellFormed

end container
